import Mathlib

/-!
Verification of the Ateema proposal-builder budget allocator
(`app/ateema/upgrader.py`, "CloudVersion_Final" variant, with the
"CloudVersion" variant's tier filter embedded alongside for comparison).

Python floats are modelled as `ℚ`, Python dicts as ordered association
lists (`List (String × _)`), `None` as `Option`, and dates as integer
day numbers.  The collaborators `price_points`, `effective_line_price`
and `get_effective_unit_price` live in `ateema/pricing.py`, which is not
part of the sources; they are modelled from the spec and marked as such.
-/

set_option maxRecDepth 100000

namespace Ateema

/-- Lowercase a string character by character (Python `str.lower` on the
ASCII labels used by the catalog). -/
def lowerStr (s : String) : String := String.mk (s.data.map Char.toLower)

/-- `isPrefixOfB pat l` decides whether `pat` is a prefix of `l`. -/
def isPrefixOfB : List Char → List Char → Bool
  | [], _ => true
  | _ :: _, [] => false
  | a :: as, b :: bs => a = b && isPrefixOfB as bs

/-- `infixOfB pat l` decides whether `pat` occurs contiguously in `l`
(Python's `pat in l` on strings). -/
def infixOfB (pat : List Char) : List Char → Bool
  | [] => isPrefixOfB pat []
  | c :: rest => isPrefixOfB pat (c :: rest) || infixOfB pat rest

/-- Python `sub in s` for strings: contiguous substring test. -/
def containsStr (s sub : String) : Bool := infixOfB sub.data s.data

/-- Keyword block-list of `_is_restricted_tier` in the
`CloudVersion_Final` variant (eight distinct entries). -/
def restricted_keywords : List String :=
  ["with any campaign",
   "Contract with multiple products",
   "with campaign",
   "existing advertiser",
   "advertiser rate",
   "bundle",
   "add-on",
   "package price"]

/-- Keyword block-list of the `CloudVersion` variant: the missing comma
after `"Contract with multiple products"` makes Python concatenate the
two adjacent literals into one malformed keyword (seven entries). -/
def restricted_keywords_v1 : List String :=
  ["with any campaign",
   "Contract with multiple productswith campaign",
   "existing advertiser",
   "advertiser rate",
   "bundle",
   "add-on",
   "package price"]

/-- Common body of `_is_restricted_tier`, parametrised by the keyword
block-list (the two source variants differ only in that list).  Note the
source lowercases the label but compares the keywords verbatim. -/
def restrictedCore (kws : List String) (label : String) (is_advertiser : Bool) : Bool :=
  if is_advertiser then false
  else
    let lbl := lowerStr label
    if containsStr lbl "advertiser" && !containsStr lbl "non-advertiser"
        && !containsStr lbl "non advertiser" then true
    else kws.any (fun kw => containsStr lbl kw)

/-- `_is_restricted_tier` of the `CloudVersion_Final` variant. -/
def _is_restricted_tier (label : String) (is_advertiser : Bool) : Bool :=
  restrictedCore restricted_keywords label is_advertiser

/-- `_is_restricted_tier` of the `CloudVersion` variant. -/
def is_restricted_tier_v1 (label : String) (is_advertiser : Bool) : Bool :=
  restrictedCore restricted_keywords_v1 label is_advertiser

/-- `map_line_price`: custom pricing for "Chicago Does Interactive Map";
`none` plays the role of the Python `None` "not handled here" sentinel.
A quarter count of `None` or `0` (Python falsy) is replaced by 1. -/
def map_line_price (pname : String) (_tier_label : String) (eff_base : ℚ)
    (interactive_map_quarters : Option Int) : Option ℚ :=
  if pname ≠ "Chicago Does Interactive Map" then none
  else
    let q : Int :=
      match interactive_map_quarters with
      | none => 1
      | some n => if n = 0 then 1 else n
    some (eff_base * q)

/-- Digits-to-number accumulator for the tier-label quantity parser. -/
def natOfDigits (ds : List Char) : Nat :=
  ds.foldl (fun a c => a * 10 + (c.toNat - 48)) 0

/-- Modelled from the spec: the generic line-price formula "derives a
quantity from the tier label pattern `<integer>x` (case-insensitive),
defaulting to quantity 1 when the tier label does not match that
pattern" (the same parse as `qty_from_tier` in `streamlit_app.py`). -/
def qty_from_tier (tier : String) : Nat :=
  let cs := tier.trim.data
  let ds := cs.takeWhile Char.isDigit
  let rest := cs.dropWhile Char.isDigit
  if ds.isEmpty then 1
  else
    match rest.dropWhile (fun c => c = ' ') with
    | [c] => if c = 'x' || c = 'X' then natOfDigits ds else 1
    | _ => 1

/-- One price option of a product: an optional display name and the
`(tier label, base price)` pairs it carries. -/
structure PriceOption where
  name : Option String
  points : List (String × ℚ)
deriving Repr, DecidableEq

/-- A catalog product: an ordered sequence of price options. -/
structure ProductRecord where
  price_options : List PriceOption
deriving Repr, DecidableEq

/-- Modelled from the spec: `price_points` of `ateema/pricing.py`
returns an option's `(tier label, base price)` pairs. -/
def price_points (opt : PriceOption) : List (String × ℚ) := opt.points

/-- Modelled from the spec: `effective_line_price` of
`ateema/pricing.py` multiplies the unit price by the quantity implied by
the tier label.  The product argument is kept to mirror the Python
signature. -/
def effective_line_price (_product : ProductRecord) (tier_label : String)
    (unit_price : ℚ) : ℚ :=
  unit_price * (qty_from_tier tier_label : ℚ)

/-- Per-option metadata: an optional seasonal window (first day, last
day, override price) and an optional advertiser override price. -/
structure OptionMeta where
  seasonal : Option (Int × Int × ℚ)
  advPrice : Option ℚ
deriving Repr, DecidableEq

/-- Per-product metadata: option name to `OptionMeta`. -/
structure ProductMeta where
  options : List (String × OptionMeta)
deriving Repr, DecidableEq

/-- Python dict lookup on an ordered association list. -/
def lookupA {α : Type} (l : List (String × α)) (k : String) : Option α :=
  (l.find? (fun e => e.1 = k)).map (fun e => e.2)

/-- Modelled from the spec: `get_effective_unit_price` of
`ateema/pricing.py` applies, in order, a seasonal override when the
chosen date falls inside the configured window for the option, then an
advertiser override price when `is_advertiser` is set; with no metadata
it returns the base price unchanged. -/
def get_effective_unit_price (_product_name option_name : String) (base_price : ℚ)
    (meta : ProductMeta) (chosen_date : Option Int) (is_advertiser : Bool) : ℚ :=
  match lookupA meta.options option_name with
  | none => base_price
  | some om =>
    let seasonal : ℚ :=
      match chosen_date, om.seasonal with
      | some d, some w => if w.1 ≤ d ∧ d ≤ w.2.1 then w.2.2 else base_price
      | _, _ => base_price
    if is_advertiser then
      match om.advPrice with
      | some p => p
      | none => seasonal
    else seasonal

/-- The Summit-Booth option-level filter: inside `greedy_fill_to_cap`,
for products whose name contains both "summit" and "booth", an option is
skipped when its name is non-advertiser specific and the requester is an
advertiser, or advertiser specific and the requester is not. -/
def summitSkip (pname opt_name : String) (is_advertiser : Bool) : Bool :=
  if containsStr (lowerStr pname) "summit" && containsStr (lowerStr pname) "booth" then
    let low := lowerStr opt_name
    let has_non := containsStr low "non-advertiser" || containsStr low "non advertiser"
    let has_adv := containsStr low "advertiser" && !has_non
    if is_advertiser then has_non else has_adv
  else false

/-- A metadata table: product name to `ProductMeta` (the `meta` dict). -/
abbrev Meta := List (String × ProductMeta)

/-- The pool's product table, in Python dict insertion order. -/
abbrev Products := List (String × ProductRecord)

/-- A pick for one product: (option name, tier label, effective unit
base price), exactly the triple stored in `picks` by the allocator. -/
abbrev PickT := String × String × ℚ

/-- The allocator's `picks` dict, in insertion order. -/
abbrev Picks := List (String × PickT)

/-- Line price of a price point inside `greedy_fill_to_cap`: the
`map_line_price` result when it applies, otherwise
`effective_line_price`. -/
def lineOf (pname : String) (product : ProductRecord) (lbl : String) (eff : ℚ)
    (quarters : Option Int) : ℚ :=
  match map_line_price pname lbl eff quarters with
  | some m => m
  | none => effective_line_price product lbl eff

/-- An enumerated eligible price point: option name, tier label,
effective unit price, and its line price. -/
structure Cand where
  opt : String
  lbl : String
  eff : ℚ
  line : ℚ
deriving Repr, DecidableEq

/-- All eligible price points of one product, in enumeration order: for
each option (Summit-Booth filter applied), each price point that passes
`_is_restricted_tier`, with its effective unit price and line price.
This is the enumeration both allocator phases perform. -/
def eligibleCands (pname : String) (product : ProductRecord) (meta : Meta)
    (chosen_date : Option Int) (is_advertiser : Bool) (quarters : Option Int) :
    List Cand :=
  product.price_options.flatMap (fun opt =>
    let opt_name := opt.name.getD pname
    if summitSkip pname opt_name is_advertiser then []
    else
      (price_points opt).filterMap (fun pt =>
        if _is_restricted_tier pt.1 is_advertiser then none
        else
          let eff := get_effective_unit_price pname opt_name pt.2
            ((lookupA meta pname).getD ⟨[]⟩) chosen_date is_advertiser
          some ⟨opt_name, pt.1, eff, lineOf pname product pt.1 eff quarters⟩))

/-- One step of the baseline (phase 1) accumulation: the Python `best` /
`best_line` update, with the Interactive-Map rule (highest line not
exceeding the budget) for the special product and cheapest-first for the
rest. -/
def chooseBaseline (budget : ℚ) (pname : String) (best : Option Cand) (c : Cand) :
    Option Cand :=
  if pname = "Chicago Does Interactive Map" then
    match best with
    | none => if c.line ≤ budget then some c else none
    | some b => if c.line ≤ budget ∧ b.line < c.line then some c else some b
  else
    match best with
    | none => some c
    | some b => if c.line < b.line then some c else some b

/-- Phase-1 baseline pick of one product. -/
def baselineBest (budget : ℚ) (pname : String) (product : ProductRecord)
    (meta : Meta) (chosen_date : Option Int) (is_advertiser : Bool)
    (quarters : Option Int) : Option Cand :=
  (eligibleCands pname product meta chosen_date is_advertiser quarters).foldl
    (chooseBaseline budget pname) none

/-- Phase 1 of `greedy_fill_to_cap`: baseline picks and their subtotal
(the source recomputes each chosen pick's line price when adding it to
the subtotal, hence the `lineOf` call here). -/
def phase1 (budget : ℚ) (meta : Meta) (chosen_date : Option Int)
    (is_advertiser : Bool) (quarters : Option Int) : Products → Picks × ℚ
  | [] => ([], 0)
  | (pname, product) :: rest =>
    let res := phase1 budget meta chosen_date is_advertiser quarters rest
    match baselineBest budget pname product meta chosen_date is_advertiser quarters with
    | none => res
    | some c =>
      ((pname, (c.opt, c.lbl, c.eff)) :: res.1,
        lineOf pname product c.lbl c.eff quarters + res.2)

/-- In-place update of the `picks` dict: replace the value at the first
occurrence of the key, keeping insertion order (Python dict update). -/
def updateA : Picks → String → PickT → Picks
  | [], _, _ => []
  | (k, v) :: rest, key, w =>
    if k = key then (k, w) :: rest else (k, v) :: updateA rest key w

/-- One iteration of the upgrade loop's inner `for` over a snapshot
entry `(pname, (cur_opt, cur_lbl, cur_base))`: collect the strictly more
expensive eligible points, sort them by line price (Python's stable
sort), and apply the first affordable one.  `products[pname]` cannot
miss in an actual run since `picks` keys come from `products`; the
missing case is modelled as a no-op. -/
def stepProduct (budget : ℚ) (products : Products) (meta : Meta)
    (chosen_date : Option Int) (is_advertiser : Bool) (quarters : Option Int)
    (st : Picks × ℚ × Bool) (entry : String × PickT) : Picks × ℚ × Bool :=
  match lookupA products entry.1 with
  | none => st
  | some product =>
    let pname := entry.1
    let cur_line := lineOf pname product entry.2.2.1 entry.2.2.2 quarters
    let cands := eligibleCands pname product meta chosen_date is_advertiser quarters
    let upgrades := cands.filter (fun c => decide (cur_line < c.line))
    let sorted := upgrades.mergeSort (fun a b => decide (a.line ≤ b.line))
    match sorted.find? (fun c => decide (st.2.1 - cur_line + c.line ≤ budget)) with
    | some c => (updateA st.1 pname (c.opt, c.lbl, c.eff), st.2.1 - cur_line + c.line, true)
    | none => st

/-- One pass of the upgrade `while` loop: iterate over a snapshot of
`picks.items()`, threading the picks, subtotal and `improved` flag. -/
def onePass (budget : ℚ) (products : Products) (meta : Meta)
    (chosen_date : Option Int) (is_advertiser : Bool) (quarters : Option Int)
    (picks : Picks) (subtotal : ℚ) : Picks × ℚ × Bool :=
  picks.foldl (stepProduct budget products meta chosen_date is_advertiser quarters)
    (picks, subtotal, false)

/-- The upgrade `while improved` loop, with explicit pass fuel (the
source loop is unbounded; `upgradeLoop_fuel_stable` below shows the
fuel used by `greedy_core` is always enough). -/
def upgradeLoop (budget : ℚ) (products : Products) (meta : Meta)
    (chosen_date : Option Int) (is_advertiser : Bool) (quarters : Option Int) :
    Nat → Picks → ℚ → Picks × ℚ
  | 0, picks, subtotal => (picks, subtotal)
  | fuel + 1, picks, subtotal =>
    let res := onePass budget products meta chosen_date is_advertiser quarters
      picks subtotal
    if res.2.2 then
      upgradeLoop budget products meta chosen_date is_advertiser quarters fuel
        res.1 res.2.1
    else (res.1, res.2.1)

/-- Measure of one pick entry: the number of eligible points of its
product that are strictly more expensive than the current pick's line
price. -/
def candMeasure (products : Products) (meta : Meta) (chosen_date : Option Int)
    (is_advertiser : Bool) (quarters : Option Int) (e : String × PickT) : Nat :=
  match lookupA products e.1 with
  | none => 0
  | some product =>
    (eligibleCands e.1 product meta chosen_date is_advertiser quarters).countP
      (fun c => decide (lineOf e.1 product e.2.2.1 e.2.2.2 quarters < c.line))

/-- Measure of a `picks` state: every applied upgrade strictly
decreases it, which bounds the number of passes of the upgrade loop. -/
def picksMeasure (products : Products) (meta : Meta) (chosen_date : Option Int)
    (is_advertiser : Bool) (quarters : Option Int) (picks : Picks) : Nat :=
  (picks.map (candMeasure products meta chosen_date is_advertiser quarters)).sum

/-- `greedy_fill_to_cap` before the final rounding: baseline picks, the
forced-overage test, and (when not forced) the upgrade loop, run with
provably sufficient fuel. -/
def greedy_core (budget : ℚ) (products : Products) (meta : Meta)
    (chosen_date : Option Int) (is_advertiser : Bool) (quarters : Option Int) :
    Picks × ℚ × Bool :=
  let base := phase1 budget meta chosen_date is_advertiser quarters products
  if budget < base.2 then (base.1, base.2, true)
  else
    let fuel := picksMeasure products meta chosen_date is_advertiser quarters base.1 + 1
    let res := upgradeLoop budget products meta chosen_date is_advertiser quarters
      fuel base.1 base.2
    (res.1, res.2, false)

/-- Round half to even (Python's `round`) of a rational. -/
def roundHalfEven (x : ℚ) : ℤ :=
  let f := ⌊x⌋
  if x - f < 1 / 2 then f
  else if 1 / 2 < x - f then f + 1
  else if Even f then f else f + 1

/-- Python `round(x, 2)`. -/
def round2 (x : ℚ) : ℚ := (roundHalfEven (x * 100) : ℚ) / 100

/-- The allocator's result record for one pool. -/
structure Selection where
  picks : Picks
  subtotal : ℚ
deriving Repr, DecidableEq

/-- `greedy_fill_to_cap`: the full allocator for one pool, returning the
Selection (with subtotal rounded to 2 decimal places) and the
forced-overage flag. -/
def greedy_fill_to_cap (budget : ℚ) (products : Products) (meta : Meta)
    (chosen_date : Option Int) (is_advertiser : Bool) (quarters : Option Int) :
    Selection × Bool :=
  let r := greedy_core budget products meta chosen_date is_advertiser quarters
  (⟨r.1, round2 r.2.1⟩, r.2.2)

/-- The fixed advisory text of `run_fill_to_cap` (Final variant). -/
def warning_text : String :=
  "Heads up: Even with the most cost-effective options selected, the current budget distribution cannot support this product mix."

/-- Result of `run_fill_to_cap`. -/
structure RunResult where
  t_sel : Selection
  i_sel : Selection
  grand_total : ℚ
  warning : Option String
deriving Repr, DecidableEq

/-- `run_fill_to_cap`: split the total budget by percentage, allocate
each pool, and combine subtotals and overage flags. -/
def run_fill_to_cap (total_budget tourist_pct industry_pct : ℚ)
    (t_set i_set : Products) (meta : Meta) (chosen_date : Option Int)
    (is_advertiser : Bool) (quarters : Option Int) : RunResult :=
  let t_budget := total_budget * (tourist_pct / 100)
  let i_budget := total_budget * (industry_pct / 100)
  let t := greedy_fill_to_cap t_budget t_set meta chosen_date is_advertiser quarters
  let i := greedy_fill_to_cap i_budget i_set meta chosen_date is_advertiser quarters
  let grand_total := round2 (t.1.subtotal + i.1.subtotal)
  let warning := if t.2 || i.2 then some warning_text else none
  ⟨t.1, i.1, grand_total, warning⟩

/-! ### Concrete inputs used by witnesses and counterexamples -/

/-- The "Banner Ad" record of the spec's scenario: a single unnamed
option with price points `("1x", 100)` and `("4x", 350)`. -/
def bannerRecord : ProductRecord := ⟨[⟨none, [("1x", 100), ("4x", 350)]⟩]⟩

/-- One-product pool holding `bannerRecord`. -/
def bannerProducts : Products := [("Banner Ad", bannerRecord)]

/-- An Interactive-Map record with tiers at 100 and 1000. -/
def mapRecord : ProductRecord := ⟨[⟨none, [("T1", 100), ("T2", 1000)]⟩]⟩

/-- A pool with the Interactive-Map product (tiers at 100 and 1000) and
a second product with a single 50 tier. -/
def mapPoolProducts : Products :=
  [("Chicago Does Interactive Map", mapRecord),
   ("A", ⟨[⟨none, [("Base", 50)]⟩]⟩)]

/-! ### C1: forced overage is the baseline-exceeds-budget test -/

/-- C1: `greedy_fill_to_cap` reports `forced_overage = true` exactly
when the phase-1 baseline subtotal strictly exceeds the budget, and in
that case the returned picks are exactly the baseline picks (the
upgrade loop is not entered). -/
theorem forced_overage_iff_baseline (budget : ℚ) (products : Products) (meta : Meta)
    (d : Option Int) (adv : Bool) (q : Option Int) :
    ((greedy_fill_to_cap budget products meta d adv q).2 = true ↔
      budget < (phase1 budget meta d adv q products).2)
    ∧ ((greedy_fill_to_cap budget products meta d adv q).2 = true →
      (greedy_fill_to_cap budget products meta d adv q).1.picks
        = (phase1 budget meta d adv q products).1) := by
  by_cases h : budget < (phase1 budget meta d adv q products).2
  · simp [greedy_fill_to_cap, greedy_core, h]
  · simp [greedy_fill_to_cap, greedy_core, h]

/-- Witness for C1 at a concrete forced-overage input. -/
theorem forced_overage_iff_baseline_witness :
    (greedy_fill_to_cap (-1) [] [] none false none).2 = true
    ∧ (greedy_fill_to_cap (-1) [] [] none false none).1.picks = [] := by
  have h := forced_overage_iff_baseline (-1) [] [] none false none
  have hb : (-1 : ℚ) < (phase1 (-1) [] none false none []).2 := by
    norm_num [phase1]
  refine ⟨h.1.mpr hb, ?_⟩
  have := h.2 (h.1.mpr hb)
  simpa [phase1] using this

/-! ### C7: the Interactive-Map line-price formula -/

/-- C7: `map_line_price` multiplies the effective unit price by the
quarter count for the product named exactly "Chicago Does Interactive
Map", treating a `None` or zero quarter count as 1, and returns the
not-handled sentinel (`none`) for every other product name. -/
theorem map_line_price_spec (lbl : String) (eff : ℚ) (q : Option Int) (pname : String) :
    (∀ n : Int, q = some n → n ≠ 0 →
      map_line_price "Chicago Does Interactive Map" lbl eff q = some (eff * n))
    ∧ ((q = none ∨ q = some 0) →
      map_line_price "Chicago Does Interactive Map" lbl eff q = some (eff * 1))
    ∧ (pname ≠ "Chicago Does Interactive Map" → map_line_price pname lbl eff q = none) := by
  refine ⟨?_, ?_, ?_⟩
  · intro n hn hne
    subst hn
    simp [map_line_price, hne]
  · rintro (h | h) <;> subst h <;> simp [map_line_price]
  · intro h
    simp [map_line_price, h]

/-- Witness for C7 at concrete inputs for each of the three cases. -/
theorem map_line_price_spec_witness :
    map_line_price "Chicago Does Interactive Map" "Q" 5 (some 3) = some (5 * 3)
    ∧ map_line_price "Chicago Does Interactive Map" "Q" 5 none = some (5 * 1)
    ∧ map_line_price "Banner Ad" "Q" 5 none = none :=
  ⟨(map_line_price_spec "Q" 5 (some 3) "Banner Ad").1 3 rfl (by decide),
   (map_line_price_spec "Q" 5 none "Banner Ad").2.1 (Or.inl rfl),
   (map_line_price_spec "Q" 5 none "Banner Ad").2.2 (by decide)⟩

/-! ### C9: the pool orchestrator -/

/-- C9: `run_fill_to_cap` allocates the tourist pool at budget
`total * tourist_pct / 100` and the industry pool at
`total * industry_pct / 100`, returns
`grand_total = round2 (tourist subtotal + industry subtotal)`, and its
warning is the fixed advisory string exactly when at least one pool
reported forced overage (`none` otherwise). -/
theorem run_fill_to_cap_spec (tb tpct ipct : ℚ) (tset iset : Products) (meta : Meta)
    (d : Option Int) (adv : Bool) (q : Option Int) :
    run_fill_to_cap tb tpct ipct tset iset meta d adv q =
      ⟨(greedy_fill_to_cap (tb * (tpct / 100)) tset meta d adv q).1,
       (greedy_fill_to_cap (tb * (ipct / 100)) iset meta d adv q).1,
       round2 ((greedy_fill_to_cap (tb * (tpct / 100)) tset meta d adv q).1.subtotal
         + (greedy_fill_to_cap (tb * (ipct / 100)) iset meta d adv q).1.subtotal),
       if (greedy_fill_to_cap (tb * (tpct / 100)) tset meta d adv q).2
           || (greedy_fill_to_cap (tb * (ipct / 100)) iset meta d adv q).2 then
         some warning_text
       else none⟩
    ∧ ((run_fill_to_cap tb tpct ipct tset iset meta d adv q).warning ≠ none ↔
      ((greedy_fill_to_cap (tb * (tpct / 100)) tset meta d adv q).2 = true
        ∨ (greedy_fill_to_cap (tb * (ipct / 100)) iset meta d adv q).2 = true)) := by
  refine ⟨rfl, ?_⟩
  by_cases ht : (greedy_fill_to_cap (tb * (tpct / 100)) tset meta d adv q).2
  · simp [run_fill_to_cap, ht]
  · by_cases hi : (greedy_fill_to_cap (tb * (ipct / 100)) iset meta d adv q).2
    · simp [run_fill_to_cap, ht, hi]
    · simp [run_fill_to_cap, ht, hi]

/-- Witness for C9 at a concrete input (empty pools, 60/40 split). -/
theorem run_fill_to_cap_spec_witness :
    run_fill_to_cap 10000 60 40 [] [] [] none false none =
      ⟨⟨[], 0⟩, ⟨[], 0⟩, 0, none⟩
    ∧ ¬((run_fill_to_cap 10000 60 40 [] [] [] none false none).warning ≠ none) := by
  have h := run_fill_to_cap_spec 10000 60 40 [] [] [] none false none
  constructor
  · rw [h.1]
    with_unfolding_all decide
  · rw [not_iff_not.mpr h.2]
    push_neg
    constructor <;> with_unfolding_all decide

/-! ### C4: the tier restriction filter (code bug: dead keyword) -/

/-- C4: contrary to the claim, a label containing the phrase
"contract with multiple products" is NOT restricted for a
non-advertiser in either source variant: the code lowercases the label
but keeps the block-list keyword's capital "C", so that keyword can
never match.  This theorem evaluates both variants at the failing
input, and also confirms the advertiser short-circuit the claim states. -/
theorem restricted_contract_keyword_dead :
    _is_restricted_tier "Contract with multiple products" false = false
    ∧ is_restricted_tier_v1 "Contract with multiple products" false = false
    ∧ _is_restricted_tier "Contract with multiple products" true = false := by
  decide

/-! ### C8: the Banner-Ad scenario (spec scenario contradicts its own formula) -/

/-- C8: counterexample to the claimed scenario outcome.  With line
price = unit price x label quantity (the formula the claim itself
states), the "4x" point costs 4 x 350 = 1400 > 400, so the upgrade
never applies and the returned subtotal is 100, not 350. -/
theorem banner_scenario_subtotal_not_350 :
    (greedy_fill_to_cap 400 bannerProducts [] none true none).1.subtotal = 100
    ∧ (greedy_fill_to_cap 400 bannerProducts [] none true none).1.subtotal ≠ 350 := by
  with_unfolding_all decide

/-- C8 (amended): in the Banner-Ad scenario the baseline picks the
"1x" point at line price 100; the only upgrade candidate is the "4x"
point at line price 4 x 350 = 1400, which exceeds the 400 budget, so no
upgrade applies and the final subtotal is 100 with no forced overage. -/
theorem banner_scenario_amended :
    eligibleCands "Banner Ad" bannerRecord [] none true none =
      [⟨"Banner Ad", "1x", 100, 100⟩, ⟨"Banner Ad", "4x", 350, 1400⟩]
    ∧ baselineBest 400 "Banner Ad" bannerRecord [] none true none =
      some ⟨"Banner Ad", "1x", 100, 100⟩
    ∧ greedy_fill_to_cap 400 bannerProducts [] none true none =
      (⟨[("Banner Ad", ("Banner Ad", "1x", 100))], 100⟩, false) := by
  with_unfolding_all decide

/-! ### C5: counterexample to budget monotonicity of the forced flag -/

/-- C5: counterexample.  With the Interactive-Map product (tiers 100
and 1000) and a second 50-priced product, budget 150 yields
`forced_overage = false` but the larger budget 1000 yields
`forced_overage = true` (the Map baseline jumps to the 1000 tier and
the baseline subtotal 1050 exceeds 1000), refuting the claim that a
non-overage result can never flip into overage as the budget grows. -/
theorem forced_overage_not_monotone :
    (150 : ℚ) ≤ 1000
    ∧ (greedy_fill_to_cap 150 mapPoolProducts [] none true none).2 = false
    ∧ (greedy_fill_to_cap 1000 mapPoolProducts [] none true none).2 = true := by
  refine ⟨by norm_num, ?_, ?_⟩ <;> with_unfolding_all decide

/-! ### Upgrade-step characterization and loop invariants -/

/-- A step of the upgrade pass either leaves the state unchanged or
applies an upgrade: a strictly more expensive eligible candidate of the
entry's product whose substitution stays within the budget. -/
theorem stepProduct_cases (budget : ℚ) (products : Products) (meta : Meta)
    (d : Option Int) (adv : Bool) (q : Option Int) (st : Picks × ℚ × Bool)
    (e : String × PickT) :
    stepProduct budget products meta d adv q st e = st
    ∨ ∃ product c,
        lookupA products e.1 = some product
        ∧ c ∈ eligibleCands e.1 product meta d adv q
        ∧ lineOf e.1 product e.2.2.1 e.2.2.2 q < c.line
        ∧ st.2.1 - lineOf e.1 product e.2.2.1 e.2.2.2 q + c.line ≤ budget
        ∧ stepProduct budget products meta d adv q st e =
            (updateA st.1 e.1 (c.opt, c.lbl, c.eff),
              st.2.1 - lineOf e.1 product e.2.2.1 e.2.2.2 q + c.line, true) := by
  cases hp : lookupA products e.1 with
  | none => left; simp [stepProduct, hp]
  | some product =>
    cases hf : (((eligibleCands e.1 product meta d adv q).filter
          (fun c => decide (lineOf e.1 product e.2.2.1 e.2.2.2 q < c.line))).mergeSort
          (fun a b => decide (a.line ≤ b.line))).find?
          (fun c => decide (st.2.1 - lineOf e.1 product e.2.2.1 e.2.2.2 q + c.line ≤ budget)) with
    | none => left; simp [stepProduct, hp, hf]
    | some c =>
      right
      have hmem : c ∈ ((eligibleCands e.1 product meta d adv q).filter
          (fun c => decide (lineOf e.1 product e.2.2.1 e.2.2.2 q < c.line))) :=
        (List.mergeSort_perm _ _).mem_iff.mp (List.mem_of_find?_eq_some hf)
      have hmem' := List.mem_filter.mp hmem
      refine ⟨product, c, rfl, hmem'.1, by simpa using hmem'.2, ?_, ?_⟩
      · have := List.find?_some hf
        simpa using this
      · simp [stepProduct, hp, hf]

/-- A step of the upgrade pass never decreases the running subtotal. -/
theorem stepProduct_sub_mono (budget : ℚ) (products : Products) (meta : Meta)
    (d : Option Int) (adv : Bool) (q : Option Int) (st : Picks × ℚ × Bool)
    (e : String × PickT) :
    st.2.1 ≤ (stepProduct budget products meta d adv q st e).2.1 := by
  rcases stepProduct_cases budget products meta d adv q st e with heq |
    ⟨product, c, _, _, hlt, _, heq⟩
  · rw [heq]
  · rw [heq]
    dsimp only
    linarith

/-- A step of the upgrade pass preserves the key sequence of `picks`. -/
theorem updateA_keys (p : Picks) (k : String) (w : PickT) :
    (updateA p k w).map Prod.fst = p.map Prod.fst := by
  induction p with
  | nil => rfl
  | cons e rest ih =>
    by_cases h : e.1 = k
    · cases e; simp_all [updateA]
    · cases e; simp_all [updateA]

/-- Folding upgrade steps keeps the subtotal at or below the budget. -/
theorem foldl_step_sub_le (budget : ℚ) (products : Products) (meta : Meta)
    (d : Option Int) (adv : Bool) (q : Option Int) (l : List (String × PickT)) :
    ∀ st : Picks × ℚ × Bool, st.2.1 ≤ budget →
      (l.foldl (stepProduct budget products meta d adv q) st).2.1 ≤ budget := by
  induction l with
  | nil => intro st h; exact h
  | cons e rest ih =>
    intro st h
    rcases stepProduct_cases budget products meta d adv q st e with heq |
      ⟨product, c, _, _, _, hle, heq⟩
    · rw [List.foldl_cons, heq]; exact ih st h
    · rw [List.foldl_cons, heq]; exact ih _ hle

/-- Folding upgrade steps never decreases the subtotal. -/
theorem foldl_step_sub_mono (budget : ℚ) (products : Products) (meta : Meta)
    (d : Option Int) (adv : Bool) (q : Option Int) (l : List (String × PickT)) :
    ∀ st : Picks × ℚ × Bool,
      st.2.1 ≤ (l.foldl (stepProduct budget products meta d adv q) st).2.1 := by
  induction l with
  | nil => intro st; exact le_refl _
  | cons e rest ih =>
    intro st
    calc st.2.1 ≤ (stepProduct budget products meta d adv q st e).2.1 :=
          stepProduct_sub_mono budget products meta d adv q st e
      _ ≤ _ := by rw [List.foldl_cons]; exact ih _

/-- One upgrade pass keeps the subtotal at or below the budget. -/
theorem onePass_sub_le (budget : ℚ) (products : Products) (meta : Meta)
    (d : Option Int) (adv : Bool) (q : Option Int) (picks : Picks) (subtotal : ℚ)
    (h : subtotal ≤ budget) :
    (onePass budget products meta d adv q picks subtotal).2.1 ≤ budget :=
  foldl_step_sub_le budget products meta d adv q picks (picks, subtotal, false) h

/-- One upgrade pass never decreases the subtotal. -/
theorem onePass_sub_mono (budget : ℚ) (products : Products) (meta : Meta)
    (d : Option Int) (adv : Bool) (q : Option Int) (picks : Picks) (subtotal : ℚ) :
    subtotal ≤ (onePass budget products meta d adv q picks subtotal).2.1 :=
  foldl_step_sub_mono budget products meta d adv q picks (picks, subtotal, false)

/-- The upgrade loop keeps the subtotal at or below the budget. -/
theorem upgradeLoop_sub_le (budget : ℚ) (products : Products) (meta : Meta)
    (d : Option Int) (adv : Bool) (q : Option Int) :
    ∀ (fuel : Nat) (picks : Picks) (subtotal : ℚ), subtotal ≤ budget →
      (upgradeLoop budget products meta d adv q fuel picks subtotal).2 ≤ budget := by
  intro fuel
  induction fuel with
  | zero => intro picks subtotal h; exact h
  | succ n ih =>
    intro picks subtotal h
    rw [upgradeLoop]
    by_cases himp : (onePass budget products meta d adv q picks subtotal).2.2
    · simp only [himp, if_true]
      exact ih _ _ (onePass_sub_le budget products meta d adv q picks subtotal h)
    · simp only [himp, if_false]
      exact onePass_sub_le budget products meta d adv q picks subtotal h

/-- The upgrade loop never decreases the subtotal. -/
theorem upgradeLoop_sub_mono (budget : ℚ) (products : Products) (meta : Meta)
    (d : Option Int) (adv : Bool) (q : Option Int) :
    ∀ (fuel : Nat) (picks : Picks) (subtotal : ℚ),
      subtotal ≤ (upgradeLoop budget products meta d adv q fuel picks subtotal).2 := by
  intro fuel
  induction fuel with
  | zero => intro picks subtotal; exact le_refl _
  | succ n ih =>
    intro picks subtotal
    rw [upgradeLoop]
    by_cases himp : (onePass budget products meta d adv q picks subtotal).2.2
    · simp only [himp, if_true]
      exact le_trans (onePass_sub_mono budget products meta d adv q picks subtotal) (ih _ _)
    · simp only [himp, if_false]
      exact onePass_sub_mono budget products meta d adv q picks subtotal

/-! ### C2: without forced overage the subtotal never exceeds the budget -/

/-- C2: whenever `greedy_fill_to_cap` reports `forced_overage = false`,
the pre-rounding subtotal of the returned Selection is at most the
budget: every applied upgrade is guarded by
`subtotal - current_line + candidate_line <= budget`. -/
theorem subtotal_le_budget_of_not_forced (budget : ℚ) (products : Products)
    (meta : Meta) (d : Option Int) (adv : Bool) (q : Option Int)
    (h : (greedy_core budget products meta d adv q).2.2 = false) :
    (greedy_core budget products meta d adv q).2.1 ≤ budget := by
  by_cases hb : budget < (phase1 budget meta d adv q products).2
  · exfalso
    rw [greedy_core] at h
    simp [hb] at h
  · rw [greedy_core]
    simp only [hb, if_false]
    exact upgradeLoop_sub_le budget products meta d adv q _ _ _ (le_of_not_lt hb)

/-- Witness for C2: the Banner-Ad pool at budget 400 is not forced and
its final subtotal stays within 400. -/
theorem subtotal_le_budget_of_not_forced_witness :
    (greedy_core 400 bannerProducts [] none true none).2.1 ≤ 400 :=
  subtotal_le_budget_of_not_forced 400 bannerProducts [] none true none
    (by with_unfolding_all decide)

/-! ### Association-list and key-tracking lemmas -/

/-- `lookupA` on a cons cell. -/
theorem lookupA_cons {α : Type} (e : String × α) (rest : List (String × α)) (k : String) :
    lookupA (e :: rest) k = if e.1 = k then some e.2 else lookupA rest k := by
  by_cases h : e.1 = k <;> simp [lookupA, List.find?_cons, h]

/-- `lookupA` misses exactly the keys absent from the list. -/
theorem lookupA_eq_none {α : Type} (l : List (String × α)) (k : String) :
    lookupA l k = none ↔ k ∉ l.map Prod.fst := by
  induction l with
  | nil => simp [lookupA]
  | cons e rest ih =>
    rw [lookupA_cons]
    by_cases h : e.1 = k
    · simp [h]
    · simp [h, ih, Ne.symm h]

/-- With nodup keys an association list is functional. -/
theorem nodup_keys_eq {α : Type} {l : List (String × α)} (hnd : (l.map Prod.fst).Nodup)
    {k : String} {a b : α} (ha : (k, a) ∈ l) (hb : (k, b) ∈ l) : a = b := by
  induction l with
  | nil => cases ha
  | cons e rest ih =>
    obtain ⟨k0, v0⟩ := e
    rw [List.map_cons, List.nodup_cons] at hnd
    rcases List.mem_cons.mp ha with ha' | ha' <;> rcases List.mem_cons.mp hb with hb' | hb'
    · exact (congrArg Prod.snd ha').trans (congrArg Prod.snd hb').symm
    · exfalso
      apply hnd.1
      rw [show k0 = k from (congrArg Prod.fst ha').symm]
      exact List.mem_map.mpr ⟨(k, b), hb', rfl⟩
    · exfalso
      apply hnd.1
      rw [show k0 = k from (congrArg Prod.fst hb').symm]
      exact List.mem_map.mpr ⟨(k, a), ha', rfl⟩
    · exact ih hnd.2 ha' hb'

/-- Every key picked in phase 1 comes from a product entry whose
baseline selection succeeded. -/
theorem phase1_keys_mem (budget : ℚ) (meta : Meta) (d : Option Int) (adv : Bool)
    (q : Option Int) :
    ∀ (P : Products) (k : String),
      k ∈ (phase1 budget meta d adv q P).1.map Prod.fst →
      ∃ pr, (k, pr) ∈ P ∧ baselineBest budget k pr meta d adv q ≠ none := by
  intro P
  induction P with
  | nil => intro k h; simp [phase1] at h
  | cons e rest ih =>
    obtain ⟨pname, product⟩ := e
    intro k h
    rw [phase1] at h
    cases hbb : baselineBest budget pname product meta d adv q with
    | none =>
      rw [hbb] at h
      obtain ⟨pr, hm, hne⟩ := ih k h
      exact ⟨pr, List.mem_cons_of_mem _ hm, hne⟩
    | some c =>
      rw [hbb] at h
      simp only [List.map_cons, List.mem_cons] at h
      rcases h with rfl | h
      · exact ⟨product, List.mem_cons_self _ _, by rw [hbb]; exact Option.some_ne_none c⟩
      · obtain ⟨pr, hm, hne⟩ := ih k h
        exact ⟨pr, List.mem_cons_of_mem _ hm, hne⟩

/-- Folding upgrade steps preserves the key sequence of `picks`. -/
theorem foldl_step_keys (budget : ℚ) (products : Products) (meta : Meta)
    (d : Option Int) (adv : Bool) (q : Option Int) (l : List (String × PickT)) :
    ∀ st : Picks × ℚ × Bool,
      ((l.foldl (stepProduct budget products meta d adv q) st).1).map Prod.fst
        = st.1.map Prod.fst := by
  induction l with
  | nil => intro st; rfl
  | cons e rest ih =>
    intro st
    rw [List.foldl_cons]
    rcases stepProduct_cases budget products meta d adv q st e with heq |
      ⟨product, c, _, _, _, _, heq⟩
    · rw [heq]; exact ih st
    · rw [heq, ih]
      exact updateA_keys st.1 e.1 (c.opt, c.lbl, c.eff)

/-- One upgrade pass preserves the key sequence of `picks`. -/
theorem onePass_keys (budget : ℚ) (products : Products) (meta : Meta)
    (d : Option Int) (adv : Bool) (q : Option Int) (picks : Picks) (subtotal : ℚ) :
    ((onePass budget products meta d adv q picks subtotal).1).map Prod.fst
      = picks.map Prod.fst :=
  foldl_step_keys budget products meta d adv q picks (picks, subtotal, false)

/-- The upgrade loop preserves the key sequence of `picks`. -/
theorem upgradeLoop_keys (budget : ℚ) (products : Products) (meta : Meta)
    (d : Option Int) (adv : Bool) (q : Option Int) :
    ∀ (fuel : Nat) (picks : Picks) (subtotal : ℚ),
      ((upgradeLoop budget products meta d adv q fuel picks subtotal).1).map Prod.fst
        = picks.map Prod.fst := by
  intro fuel
  induction fuel with
  | zero => intro picks subtotal; rfl
  | succ n ih =>
    intro picks subtotal
    rw [upgradeLoop]
    by_cases himp : (onePass budget products meta d adv q picks subtotal).2.2
    · simp only [himp, if_true]
      rw [ih]
      exact onePass_keys budget products meta d adv q picks subtotal
    · simp only [himp, if_false]
      exact onePass_keys budget products meta d adv q picks subtotal

/-- The final picks of `greedy_core` have exactly the phase-1 keys. -/
theorem greedy_core_keys (budget : ℚ) (products : Products) (meta : Meta)
    (d : Option Int) (adv : Bool) (q : Option Int) :
    ((greedy_core budget products meta d adv q).1).map Prod.fst
      = ((phase1 budget meta d adv q products).1).map Prod.fst := by
  rw [greedy_core]
  by_cases hb : budget < (phase1 budget meta d adv q products).2
  · simp [hb]
  · simp only [hb, if_false]
    exact upgradeLoop_keys budget products meta d adv q _ _ _

/-! ### Baseline fold characterizations -/

/-- Folding the default (cheapest-first) baseline update keeps the
first-encountered minimum: the result either is the seed with nothing
below it, or splits the list with strictly larger lines before it and
no smaller line after it. -/
theorem minFold (budget : ℚ) (pname : String)
    (hp : pname ≠ "Chicago Does Interactive Map") :
    ∀ (l : List Cand) (b : Cand),
      ∃ c, l.foldl (chooseBaseline budget pname) (some b) = some c
        ∧ ((c = b ∧ ∀ d ∈ l, b.line ≤ d.line)
          ∨ ∃ l1 l2, l = l1 ++ c :: l2 ∧ c.line < b.line
              ∧ (∀ d ∈ l1, c.line < d.line) ∧ (∀ d ∈ l2, c.line ≤ d.line)) := by
  intro l
  induction l with
  | nil => intro b; exact ⟨b, rfl, Or.inl ⟨rfl, by simp⟩⟩
  | cons d rest ih =>
    intro b
    rw [List.foldl_cons]
    by_cases hd : d.line < b.line
    · have hstep : chooseBaseline budget pname (some b) d = some d := by
        simp [chooseBaseline, hp, hd]
      rw [hstep]
      obtain ⟨c, hc, hcase⟩ := ih d
      refine ⟨c, hc, Or.inr ?_⟩
      rcases hcase with ⟨rfl, hall⟩ | ⟨l1, l2, hsplit, hlt, h1, h2⟩
      · exact ⟨[], rest, by simp, hd, by simp, hall⟩
      · refine ⟨d :: l1, l2, by simp [hsplit], lt_trans hlt hd, ?_, h2⟩
        intro e he
        rcases List.mem_cons.mp he with rfl | he
        · exact hlt
        · exact h1 e he
    · have hstep : chooseBaseline budget pname (some b) d = some b := by
        simp [chooseBaseline, hp, hd]
      rw [hstep]
      obtain ⟨c, hc, hcase⟩ := ih b
      refine ⟨c, hc, ?_⟩
      rcases hcase with ⟨rfl, hall⟩ | ⟨l1, l2, hsplit, hlt, h1, h2⟩
      · left
        refine ⟨rfl, ?_⟩
        intro e he
        rcases List.mem_cons.mp he with rfl | he
        · exact le_of_not_lt hd
        · exact hall e he
      · right
        refine ⟨d :: l1, l2, by simp [hsplit], hlt, ?_, h2⟩
        intro e he
        rcases List.mem_cons.mp he with rfl | he
        · exact lt_of_lt_of_le hlt (le_of_not_lt hd)
        · exact h1 e he

/-- Folding the Interactive-Map baseline update keeps the
first-encountered maximum among lines within the budget; if no line
fits, the accumulator is untouched. -/
theorem mapFold (budget : ℚ) :
    ∀ (l : List Cand) (acc : Option Cand),
      (∀ bb, acc = some bb → bb.line ≤ budget) →
      ((l.foldl (chooseBaseline budget "Chicago Does Interactive Map") acc = acc
          ∧ ∀ d ∈ l, d.line ≤ budget → ∃ bb, acc = some bb ∧ d.line ≤ bb.line)
        ∨ (∃ c l1 l2,
            l.foldl (chooseBaseline budget "Chicago Does Interactive Map") acc = some c
            ∧ l = l1 ++ c :: l2 ∧ c.line ≤ budget
            ∧ (∀ bb, acc = some bb → bb.line < c.line)
            ∧ (∀ d ∈ l1, d.line ≤ budget → d.line < c.line)
            ∧ (∀ d ∈ l2, d.line ≤ budget → d.line ≤ c.line))) := by
  intro l
  induction l with
  | nil => intro acc hacc; left; exact ⟨rfl, by simp⟩
  | cons d rest ih =>
    intro acc hacc
    rw [List.foldl_cons]
    cases acc with
    | none =>
      by_cases hd : d.line ≤ budget
      · have hstep : chooseBaseline budget "Chicago Does Interactive Map" none d
            = some d := by simp [chooseBaseline, hd]
        rw [hstep]
        have hbnd : ∀ bb, (some d : Option Cand) = some bb → bb.line ≤ budget := by
          intro bb h; cases h; exact hd
        rcases ih (some d) hbnd with ⟨heq, hall⟩ | ⟨c, l1, l2, hr, hsplit, hcb, haccb, h1, h2⟩
        · right
          refine ⟨d, [], rest, heq, by simp, hd, by simp, by simp, ?_⟩
          intro e he hef
          obtain ⟨bb, hbb, hle⟩ := hall e he hef
          cases hbb
          exact hle
        · right
          refine ⟨c, d :: l1, l2, hr, by simp [hsplit], hcb, by simp, ?_, h2⟩
          intro e he hef
          rcases List.mem_cons.mp he with rfl | he
          · exact haccb e rfl
          · exact h1 e he hef
      · have hstep : chooseBaseline budget "Chicago Does Interactive Map" none d
            = none := by simp [chooseBaseline, hd]
        rw [hstep]
        rcases ih none (by simp) with ⟨heq, hall⟩ | ⟨c, l1, l2, hr, hsplit, hcb, haccb, h1, h2⟩
        · left
          refine ⟨heq, ?_⟩
          intro e he hef
          rcases List.mem_cons.mp he with rfl | he
          · exact absurd hef hd
          · exact hall e he hef
        · right
          refine ⟨c, d :: l1, l2, hr, by simp [hsplit], hcb, by simp, ?_, h2⟩
          intro e he hef
          rcases List.mem_cons.mp he with rfl | he
          · exact absurd hef hd
          · exact h1 e he hef
    | some b =>
      have hb : b.line ≤ budget := hacc b rfl
      by_cases hd : d.line ≤ budget ∧ b.line < d.line
      · have hstep : chooseBaseline budget "Chicago Does Interactive Map" (some b) d
            = some d := by simp [chooseBaseline, hd]
        rw [hstep]
        have hbnd : ∀ bb, (some d : Option Cand) = some bb → bb.line ≤ budget := by
          intro bb h; cases h; exact hd.1
        rcases ih (some d) hbnd with ⟨heq, hall⟩ | ⟨c, l1, l2, hr, hsplit, hcb, haccb, h1, h2⟩
        · right
          refine ⟨d, [], rest, heq, by simp, hd.1, ?_, by simp, ?_⟩
          · intro bb hbb; cases hbb; exact hd.2
          · intro e he hef
            obtain ⟨bb, hbb, hle⟩ := hall e he hef
            cases hbb
            exact hle
        · right
          refine ⟨c, d :: l1, l2, hr, by simp [hsplit], hcb, ?_, ?_, h2⟩
          · intro bb hbb; cases hbb; exact lt_trans hd.2 (haccb d rfl)
          · intro e he hef
            rcases List.mem_cons.mp he with rfl | he
            · exact haccb e rfl
            · exact h1 e he hef
      · have hstep : chooseBaseline budget "Chicago Does Interactive Map" (some b) d
            = some b := by simp [chooseBaseline, hd]
        rw [hstep]
        have hdb : d.line ≤ budget → d.line ≤ b.line := by
          intro hf
          by_contra hlt
          exact hd ⟨hf, lt_of_not_le hlt⟩
        rcases ih (some b) hacc with ⟨heq, hall⟩ | ⟨c, l1, l2, hr, hsplit, hcb, haccb, h1, h2⟩
        · left
          refine ⟨heq, ?_⟩
          intro e he hef
          rcases List.mem_cons.mp he with rfl | he
          · exact ⟨b, rfl, hdb hef⟩
          · exact hall e he hef
        · right
          refine ⟨c, d :: l1, l2, hr, by simp [hsplit], hcb, haccb, ?_, h2⟩
          intro e he hef
          rcases List.mem_cons.mp he with rfl | he
          · exact lt_of_le_of_lt (hdb hef) (haccb b rfl)
          · exact h1 e he hef

/-! ### C3: default baseline policy is cheapest-first -/

/-- C3: for a product other than "Chicago Does Interactive Map" with a
nonempty eligible-point list, the phase-1 baseline pick is the eligible
point of minimum line price, the first one in enumeration order among
equal minima: every point before it is strictly more expensive and no
point after it is cheaper. -/
theorem baseline_pick_min (budget : ℚ) (pname : String) (product : ProductRecord)
    (meta : Meta) (d : Option Int) (adv : Bool) (q : Option Int)
    (hp : pname ≠ "Chicago Does Interactive Map")
    (hne : eligibleCands pname product meta d adv q ≠ []) :
    ∃ c l1 l2, baselineBest budget pname product meta d adv q = some c
      ∧ eligibleCands pname product meta d adv q = l1 ++ c :: l2
      ∧ (∀ e ∈ l1, c.line < e.line) ∧ (∀ e ∈ l2, c.line ≤ e.line) := by
  cases hcands : eligibleCands pname product meta d adv q with
  | nil => exact absurd hcands hne
  | cons x xs =>
    have hstep : chooseBaseline budget pname none x = some x := by
      simp [chooseBaseline, hp]
    obtain ⟨c, hc, hcase⟩ := minFold budget pname hp xs x
    have hbb : baselineBest budget pname product meta d adv q = some c := by
      rw [baselineBest, hcands, List.foldl_cons, hstep, hc]
    rcases hcase with ⟨rfl, hall⟩ | ⟨l1, l2, hsplit, hlt, h1, h2⟩
    · exact ⟨c, [], xs, hbb, by simp [hcands], by simp, hall⟩
    · refine ⟨c, x :: l1, l2, hbb, by simp [hcands, hsplit], ?_, h2⟩
      intro e he
      rcases List.mem_cons.mp he with rfl | he
      · exact hlt
      · exact h1 e he

/-- Witness for C3: in the Banner-Ad pool the baseline pick is the
"1x" point at line 100, the minimum eligible line price. -/
theorem baseline_pick_min_witness :
    ∃ c l1 l2, baselineBest 400 "Banner Ad" bannerRecord [] none true none = some c
      ∧ eligibleCands "Banner Ad" bannerRecord [] none true none = l1 ++ c :: l2
      ∧ (∀ e ∈ l1, c.line < e.line) ∧ (∀ e ∈ l2, c.line ≤ e.line) :=
  baseline_pick_min 400 "Banner Ad" bannerRecord [] none true none (by decide)
    (by with_unfolding_all decide)

/-! ### C6: the Interactive-Map baseline policy -/

/-- C6: in the Final variant, the phase-1 pick for "Chicago Does
Interactive Map" is the eligible point of maximum line price among
those within the pool budget (first-encountered on ties: every
within-budget point before it is strictly cheaper, none after it is
more expensive), and when no eligible point fits the budget the product
receives no baseline pick and is absent from the returned Selection. -/
theorem map_baseline_max (budget : ℚ) (product : ProductRecord) (meta : Meta)
    (d : Option Int) (adv : Bool) (q : Option Int) (P : Products)
    (hin : ("Chicago Does Interactive Map", product) ∈ P)
    (hnd : (P.map Prod.fst).Nodup) :
    ((∃ c ∈ eligibleCands "Chicago Does Interactive Map" product meta d adv q,
        c.line ≤ budget) →
      ∃ c l1 l2,
        baselineBest budget "Chicago Does Interactive Map" product meta d adv q = some c
        ∧ eligibleCands "Chicago Does Interactive Map" product meta d adv q
            = l1 ++ c :: l2
        ∧ c.line ≤ budget
        ∧ (∀ e ∈ l1, e.line ≤ budget → e.line < c.line)
        ∧ (∀ e ∈ l2, e.line ≤ budget → e.line ≤ c.line))
    ∧ ((∀ c ∈ eligibleCands "Chicago Does Interactive Map" product meta d adv q,
        budget < c.line) →
      baselineBest budget "Chicago Does Interactive Map" product meta d adv q = none
      ∧ lookupA (greedy_fill_to_cap budget P meta d adv q).1.picks
          "Chicago Does Interactive Map" = none) := by
  constructor
  · rintro ⟨c0, hc0, hc0b⟩
    rcases mapFold budget (eligibleCands "Chicago Does Interactive Map" product meta d adv q)
        none (by simp) with ⟨heq, hall⟩ | ⟨c, l1, l2, hr, hsplit, hcb, _, h1, h2⟩
    · exfalso
      obtain ⟨bb, hbb, _⟩ := hall c0 hc0 hc0b
      exact Option.noConfusion hbb
    · exact ⟨c, l1, l2, hr, hsplit, hcb, h1, h2⟩
  · intro hnone
    have hbb : baselineBest budget "Chicago Does Interactive Map" product meta d adv q
        = none := by
      rcases mapFold budget (eligibleCands "Chicago Does Interactive Map" product meta d adv q)
          none (by simp) with ⟨heq, _⟩ | ⟨c, l1, l2, hr, hsplit, hcb, _, _, _⟩
      · exact heq
      · exfalso
        have : c ∈ eligibleCands "Chicago Does Interactive Map" product meta d adv q := by
          rw [hsplit]
          exact List.mem_append_right l1 (List.mem_cons_self c l2)
        exact absurd hcb (not_le.mpr (hnone c this))
    refine ⟨hbb, ?_⟩
    rw [lookupA_eq_none]
    show "Chicago Does Interactive Map"
        ∉ ((greedy_core budget P meta d adv q).1).map Prod.fst
    rw [greedy_core_keys]
    intro hmem
    obtain ⟨pr, hm, hne⟩ := phase1_keys_mem budget meta d adv q P
      "Chicago Does Interactive Map" hmem
    have : pr = product := nodup_keys_eq hnd hm hin
    rw [this] at hne
    exact hne hbb

/-- Witness for C6: with Map tiers at 100 and 1000, budget 150 picks
the 100 tier (maximum within budget); budget 50 fits no tier, so the
Map is absent from the returned Selection. -/
theorem map_baseline_max_witness :
    (∃ c l1 l2,
        baselineBest 150 "Chicago Does Interactive Map" mapRecord [] none true none = some c
        ∧ eligibleCands "Chicago Does Interactive Map" mapRecord [] none true none
            = l1 ++ c :: l2
        ∧ c.line ≤ 150
        ∧ (∀ e ∈ l1, e.line ≤ 150 → e.line < c.line)
        ∧ (∀ e ∈ l2, e.line ≤ 150 → e.line ≤ c.line))
    ∧ (baselineBest 50 "Chicago Does Interactive Map" mapRecord [] none true none = none
      ∧ lookupA (greedy_fill_to_cap 50 mapPoolProducts [] none true none).1.picks
          "Chicago Does Interactive Map" = none) :=
  ⟨(map_baseline_max 150 mapRecord [] none true none mapPoolProducts
      (by with_unfolding_all decide) (by decide)).1
      ⟨⟨"Chicago Does Interactive Map", "T1", 100, 100⟩, by with_unfolding_all decide,
        by norm_num⟩,
   (map_baseline_max 50 mapRecord [] none true none mapPoolProducts
      (by with_unfolding_all decide) (by decide)).2
      (by with_unfolding_all decide)⟩

/-! ### Termination of the upgrade loop -/

/-- Every enumerated eligible point carries the line price computed
from its own stored fields. -/
theorem eligibleCands_line (pname : String) (product : ProductRecord) (meta : Meta)
    (d : Option Int) (adv : Bool) (q : Option Int) :
    ∀ c ∈ eligibleCands pname product meta d adv q,
      c.line = lineOf pname product c.lbl c.eff q := by
  intro c hc
  rw [eligibleCands] at hc
  obtain ⟨opt, hopt, hc⟩ := List.mem_flatMap.mp hc
  by_cases hs : summitSkip pname (opt.name.getD pname) adv
  · rw [if_pos hs] at hc
    cases hc
  · rw [if_neg hs] at hc
    obtain ⟨pt, hpt, hg⟩ := List.mem_filterMap.mp hc
    by_cases hr : _is_restricted_tier pt.1 adv
    · rw [if_pos hr] at hg
      cases hg
    · rw [if_neg hr] at hg
      have := Option.some.inj hg
      subst this
      rfl

/-- Counting with a stronger predicate never counts more. -/
theorem countP_le_of_imp {α : Type} (l : List α) (p q : α → Bool)
    (himp : ∀ x ∈ l, q x = true → p x = true) : l.countP q ≤ l.countP p := by
  induction l with
  | nil => exact le_refl _
  | cons x rest ih =>
    rw [List.countP_cons, List.countP_cons]
    have hx : (if q x = true then 1 else 0) ≤ (if p x = true then 1 else 0) := by
      by_cases hq : q x = true
      · simp [hq, himp x (List.mem_cons_self x rest) hq]
      · simp [hq]
    have hrest := ih (fun y hy => himp y (List.mem_cons_of_mem x hy))
    omega

/-- Counting with a stronger predicate counts strictly less when some
member satisfies the weak predicate but not the strong one. -/
theorem countP_lt_of_mem {α : Type} (l : List α) (p q : α → Bool)
    (himp : ∀ x ∈ l, q x = true → p x = true) (a : α) (ha : a ∈ l)
    (hpa : p a = true) (hqa : q a = false) :
    l.countP q < l.countP p := by
  induction l with
  | nil => cases ha
  | cons x rest ih =>
    rcases List.mem_cons.mp ha with rfl | ha'
    · rw [List.countP_cons_of_pos p rest hpa,
        List.countP_cons_of_neg q rest (by simp [hqa])]
      have hrest := countP_le_of_imp rest p q
        (fun y hy => himp y (List.mem_cons_of_mem a hy))
      omega
    · rw [List.countP_cons, List.countP_cons]
      have hhead : (if q x = true then 1 else 0) ≤ (if p x = true then 1 else 0) := by
        by_cases hq : q x = true
        · simp [hq, himp x (List.mem_cons_self x rest) hq]
        · simp [hq]
      have hrest := ih (fun y hy => himp y (List.mem_cons_of_mem x hy)) ha'
      omega

/-- A successful `lookupA` splits the list at the first hit. -/
theorem lookupA_split {α : Type} (l : List (String × α)) (k : String) (v : α)
    (h : lookupA l k = some v) :
    ∃ l1 l2, l = l1 ++ (k, v) :: l2 ∧ ∀ e ∈ l1, e.1 ≠ k := by
  induction l with
  | nil => exact absurd h (by simp [lookupA])
  | cons e rest ih =>
    rw [lookupA_cons] at h
    by_cases he : e.1 = k
    · rw [if_pos he] at h
      refine ⟨[], rest, ?_, by simp⟩
      obtain ⟨e1, e2⟩ := e
      cases Option.some.inj h
      cases he
      rfl
    · rw [if_neg he] at h
      obtain ⟨l1, l2, rfl, hne⟩ := ih h
      refine ⟨e :: l1, l2, rfl, ?_⟩
      intro x hx
      rcases List.mem_cons.mp hx with rfl | hx
      · exact he
      · exact hne x hx

/-- `updateA` rewrites exactly the first occurrence of the key. -/
theorem updateA_append (l1 l2 : Picks) (k : String) (v w : PickT)
    (h : ∀ e ∈ l1, e.1 ≠ k) :
    updateA (l1 ++ (k, v) :: l2) k w = l1 ++ (k, w) :: l2 := by
  induction l1 with
  | nil => simp [updateA]
  | cons e rest ih =>
    obtain ⟨e1, e2⟩ := e
    rw [List.cons_append, updateA, if_neg (h (e1, e2) (List.mem_cons_self _ _)),
      List.cons_append]
    rw [ih (fun x hx => h x (List.mem_cons_of_mem _ hx))]

/-- Updating other keys does not change a lookup. -/
theorem lookupA_updateA_ne (p : Picks) (k : String) (w : PickT) (k' : String)
    (h : k' ≠ k) : lookupA (updateA p k w) k' = lookupA p k' := by
  induction p with
  | nil => rfl
  | cons e rest ih =>
    obtain ⟨e1, e2⟩ := e
    by_cases he : e1 = k
    · rw [updateA, if_pos he, lookupA_cons, lookupA_cons]
      have : ¬(e1 = k') := fun hc => h (hc ▸ he.symm ▸ rfl)
      rw [if_neg this, if_neg this]
    · rw [updateA, if_neg he, lookupA_cons, lookupA_cons, ih]

/-- With nodup keys, every entry is found by looking up its key. -/
theorem lookupA_self (l : Picks) (hnd : (l.map Prod.fst).Nodup) :
    ∀ e ∈ l, lookupA l e.1 = some e.2 := by
  induction l with
  | nil => intro e he; cases he
  | cons x rest ih =>
    rw [List.map_cons, List.nodup_cons] at hnd
    intro e he
    rcases List.mem_cons.mp he with rfl | he'
    · rw [lookupA_cons, if_pos rfl]
    · rw [lookupA_cons, if_neg, ih hnd.2 e he']
      intro hx
      exact hnd.1 (hx ▸ List.mem_map.mpr ⟨e, he', rfl⟩)

/-- Replacing the pick at a present key shifts the measure by the
difference of the entry measures. -/
theorem picksMeasure_updateA (products : Products) (meta : Meta) (d : Option Int)
    (adv : Bool) (q : Option Int) (p : Picks) (k : String) (v w : PickT)
    (h : lookupA p k = some v) :
    picksMeasure products meta d adv q (updateA p k w)
        + candMeasure products meta d adv q (k, v)
      = picksMeasure products meta d adv q p
        + candMeasure products meta d adv q (k, w) := by
  obtain ⟨l1, l2, rfl, hne⟩ := lookupA_split p k v h
  rw [updateA_append l1 l2 k v w hne]
  simp only [picksMeasure, List.map_append, List.sum_append, List.map_cons, List.sum_cons]
  omega

/-- An upgrade step at an entry in agreement with the state either
leaves the state unchanged or strictly decreases the picks measure and
raises the `improved` flag. -/
theorem stepProduct_measure (budget : ℚ) (products : Products) (meta : Meta)
    (d : Option Int) (adv : Bool) (q : Option Int) (st : Picks × ℚ × Bool)
    (e : String × PickT) (hagree : lookupA st.1 e.1 = some e.2) :
    stepProduct budget products meta d adv q st e = st
    ∨ (picksMeasure products meta d adv q
          (stepProduct budget products meta d adv q st e).1
        < picksMeasure products meta d adv q st.1
      ∧ (stepProduct budget products meta d adv q st e).2.2 = true) := by
  rcases stepProduct_cases budget products meta d adv q st e with heq |
    ⟨product, c, hlook, hcmem, hlt, _, heq⟩
  · exact Or.inl heq
  · right
    rw [heq]
    refine ⟨?_, rfl⟩
    show picksMeasure products meta d adv q (updateA st.1 e.1 (c.opt, c.lbl, c.eff))
      < picksMeasure products meta d adv q st.1
    have hline : lineOf e.1 product c.lbl c.eff q = c.line :=
      (eligibleCands_line e.1 product meta d adv q c hcmem).symm
    have hcm_old : candMeasure products meta d adv q (e.1, e.2)
        = (eligibleCands e.1 product meta d adv q).countP
            (fun x => decide (lineOf e.1 product e.2.2.1 e.2.2.2 q < x.line)) := by
      rw [candMeasure, hlook]
    have hcm_new : candMeasure products meta d adv q (e.1, (c.opt, c.lbl, c.eff))
        = (eligibleCands e.1 product meta d adv q).countP
            (fun x => decide (c.line < x.line)) := by
      rw [candMeasure, hlook]
      simp only [hline]
    have hdec : (eligibleCands e.1 product meta d adv q).countP
          (fun x => decide (c.line < x.line))
        < (eligibleCands e.1 product meta d adv q).countP
          (fun x => decide (lineOf e.1 product e.2.2.1 e.2.2.2 q < x.line)) := by
      refine countP_lt_of_mem _ _ _ ?_ c hcmem (by simpa using hlt) (by simp)
      intro x _ hx
      have := of_decide_eq_true hx
      exact decide_eq_true (lt_trans hlt this)
    have hmeq := picksMeasure_updateA products meta d adv q st.1 e.1 e.2
      (c.opt, c.lbl, c.eff) (by simpa using hagree)
    rw [hcm_old, hcm_new] at hmeq
    omega

/-- Folding upgrade steps over a nodup snapshot in agreement with the
state either changes nothing or strictly decreases the measure and
raises the `improved` flag. -/
theorem foldl_step_measure (budget : ℚ) (products : Products) (meta : Meta)
    (d : Option Int) (adv : Bool) (q : Option Int) (l : List (String × PickT)) :
    ∀ st : Picks × ℚ × Bool,
      (∀ e ∈ l, lookupA st.1 e.1 = some e.2) →
      ((l.map Prod.fst).Nodup) →
      (l.foldl (stepProduct budget products meta d adv q) st = st
        ∨ (picksMeasure products meta d adv q
              ((l.foldl (stepProduct budget products meta d adv q) st)).1
            < picksMeasure products meta d adv q st.1
          ∧ ((l.foldl (stepProduct budget products meta d adv q) st)).2.2 = true)) := by
  induction l with
  | nil => intro st _ _; exact Or.inl rfl
  | cons e rest ih =>
    intro st hag hnd
    rw [List.map_cons, List.nodup_cons] at hnd
    rw [List.foldl_cons]
    rcases stepProduct_measure budget products meta d adv q st e
        (hag e (List.mem_cons_self _ _)) with heq | ⟨hlt, himp⟩
    · rw [heq]
      exact ih st (fun x hx => hag x (List.mem_cons_of_mem _ hx)) hnd.2
    · rcases stepProduct_cases budget products meta d adv q st e with heq |
        ⟨product, c, _, _, _, _, heq⟩
      · rw [heq] at hlt
        exact absurd rfl (ne_of_lt hlt)
      · have hag' : ∀ x ∈ rest,
            lookupA (stepProduct budget products meta d adv q st e).1 x.1 = some x.2 := by
          intro x hx
          rw [heq]
          have hxk : x.1 ≠ e.1 := by
            intro hk
            exact hnd.1 (hk ▸ List.mem_map.mpr ⟨x, hx, rfl⟩)
          rw [lookupA_updateA_ne st.1 e.1 (c.opt, c.lbl, c.eff) x.1 hxk]
          exact hag x (List.mem_cons_of_mem _ hx)
        rcases ih (stepProduct budget products meta d adv q st e) hag' hnd.2 with
          heq2 | ⟨hlt2, himp2⟩
        · rw [heq2]
          exact Or.inr ⟨hlt, himp⟩
        · exact Or.inr ⟨lt_trans hlt2 hlt, himp2⟩

/-- One upgrade pass either returns the state unchanged with
`improved = false`, or strictly decreases the picks measure with
`improved = true`. -/
theorem onePass_measure (budget : ℚ) (products : Products) (meta : Meta)
    (d : Option Int) (adv : Bool) (q : Option Int) (picks : Picks) (sub : ℚ)
    (hnd : (picks.map Prod.fst).Nodup) :
    onePass budget products meta d adv q picks sub = (picks, sub, false)
    ∨ (picksMeasure products meta d adv q
          (onePass budget products meta d adv q picks sub).1
        < picksMeasure products meta d adv q picks
      ∧ (onePass budget products meta d adv q picks sub).2.2 = true) :=
  foldl_step_measure budget products meta d adv q picks (picks, sub, false)
    (lookupA_self picks hnd) hnd

/-- Auxiliary fuel-stability induction: from a state whose measure is
at most `n`, running the upgrade loop with fuel `n + 1 + k` gives the
same result as with fuel `n + 1`. -/
theorem upgradeLoop_stable_aux (budget : ℚ) (products : Products) (meta : Meta)
    (d : Option Int) (adv : Bool) (q : Option Int) :
    ∀ (n : Nat) (picks : Picks) (sub : ℚ), (picks.map Prod.fst).Nodup →
      picksMeasure products meta d adv q picks ≤ n →
      ∀ k, upgradeLoop budget products meta d adv q (n + 1 + k) picks sub
        = upgradeLoop budget products meta d adv q (n + 1) picks sub := by
  intro n
  induction n with
  | zero =>
    intro picks sub hnd hM k
    have hfuel : 0 + 1 + k = k + 1 := by omega
    rw [hfuel, upgradeLoop, upgradeLoop]
    rcases onePass_measure budget products meta d adv q picks sub hnd with heq | ⟨hlt, _⟩
    · rw [heq]
      simp
    · omega
  | succ n ih =>
    intro picks sub hnd hM k
    have hfuel1 : n + 1 + 1 + k = (n + 1 + k) + 1 := by omega
    rw [hfuel1, upgradeLoop, upgradeLoop]
    rcases onePass_measure budget products meta d adv q picks sub hnd with heq | ⟨hlt, himp⟩
    · rw [heq]
      simp
    · rw [himp]
      simp only [if_true]
      have hnd' : (((onePass budget products meta d adv q picks sub).1).map Prod.fst).Nodup := by
        rw [onePass_keys]
        exact hnd
      have hM' : picksMeasure products meta d adv q
          (onePass budget products meta d adv q picks sub).1 ≤ n := by omega
      have h1 := ih (onePass budget products meta d adv q picks sub).1
        (onePass budget products meta d adv q picks sub).2.1 hnd' hM' k
      have h2 := ih (onePass budget products meta d adv q picks sub).1
        (onePass budget products meta d adv q picks sub).2.1 hnd' hM' 0
      rw [h1, h2]

/-- The phase-1 pick keys form a sublist of the product keys. -/
theorem phase1_keys_sublist (budget : ℚ) (meta : Meta) (d : Option Int) (adv : Bool)
    (q : Option Int) :
    ∀ P : Products,
      List.Sublist ((phase1 budget meta d adv q P).1.map Prod.fst) (P.map Prod.fst) := by
  intro P
  induction P with
  | nil => simp [phase1]
  | cons e rest ih =>
    obtain ⟨pname, product⟩ := e
    rw [phase1]
    cases hbb : baselineBest budget pname product meta d adv q with
    | none =>
      exact List.Sublist.cons _ ih
    | some c =>
      exact List.Sublist.cons₂ _ ih

/-! ### C10: the upgrade loop terminates -/

/-- C10: the upgrade `while` loop of `greedy_fill_to_cap` reaches its
fixed point within `picksMeasure + 1` passes (each applied upgrade
strictly increases the chosen line price within the product's finite
eligible-point list, so it strictly decreases `picksMeasure`): starting
from the phase-1 baseline of a product table with distinct names, any
extra fuel beyond the `picksMeasure + 1` passes used by `greedy_core`
leaves the result unchanged, so the source's unbounded loop terminates. -/
theorem upgradeLoop_fuel_stable (budget : ℚ) (products : Products) (meta : Meta)
    (d : Option Int) (adv : Bool) (q : Option Int)
    (hnd : (products.map Prod.fst).Nodup) (k : Nat) :
    upgradeLoop budget products meta d adv q
        (picksMeasure products meta d adv q (phase1 budget meta d adv q products).1 + 1 + k)
        (phase1 budget meta d adv q products).1 (phase1 budget meta d adv q products).2
      = upgradeLoop budget products meta d adv q
        (picksMeasure products meta d adv q (phase1 budget meta d adv q products).1 + 1)
        (phase1 budget meta d adv q products).1 (phase1 budget meta d adv q products).2 :=
  upgradeLoop_stable_aux budget products meta d adv q
    (picksMeasure products meta d adv q (phase1 budget meta d adv q products).1)
    (phase1 budget meta d adv q products).1 (phase1 budget meta d adv q products).2
    ((phase1_keys_sublist budget meta d adv q products).nodup hnd)
    (le_refl _) k

/-- Witness for C10 on the Banner-Ad pool with five extra passes. -/
theorem upgradeLoop_fuel_stable_witness :
    upgradeLoop 400 bannerProducts [] none true none
        (picksMeasure bannerProducts [] none true none
          (phase1 400 [] none true none bannerProducts).1 + 1 + 5)
        (phase1 400 [] none true none bannerProducts).1
        (phase1 400 [] none true none bannerProducts).2
      = upgradeLoop 400 bannerProducts [] none true none
        (picksMeasure bannerProducts [] none true none
          (phase1 400 [] none true none bannerProducts).1 + 1)
        (phase1 400 [] none true none bannerProducts).1
        (phase1 400 [] none true none bannerProducts).2 :=
  upgradeLoop_fuel_stable 400 bannerProducts [] none true none (by decide) 5

/-! ### Budget monotonicity: baseline comparison lemmas -/

/-- The baseline update always returns the accumulator or the new
candidate. -/
theorem chooseBaseline_result (b : ℚ) (pname : String) (acc : Option Cand) (dd : Cand) :
    chooseBaseline b pname acc dd = acc ∨ chooseBaseline b pname acc dd = some dd := by
  by_cases hp : pname = "Chicago Does Interactive Map"
  · subst hp
    cases acc with
    | none =>
      by_cases hd : dd.line ≤ b
      · exact Or.inr (by simp [chooseBaseline, hd])
      · exact Or.inl (by simp [chooseBaseline, hd])
    | some b0 =>
      by_cases hd : dd.line ≤ b ∧ b0.line < dd.line
      · exact Or.inr (by simp [chooseBaseline, hd.1, hd.2])
      · exact Or.inl (by simp [chooseBaseline, hd])
  · cases acc with
    | none => exact Or.inr (by simp [chooseBaseline, hp])
    | some b0 =>
      by_cases hd : dd.line < b0.line
      · exact Or.inr (by simp [chooseBaseline, hp, hd])
      · exact Or.inl (by simp [chooseBaseline, hp, hd])

/-- A successful baseline fold returns the accumulator or a member. -/
theorem foldl_chooseBaseline_mem (b : ℚ) (pname : String) :
    ∀ (l : List Cand) (acc : Option Cand) (c : Cand),
      l.foldl (chooseBaseline b pname) acc = some c → acc = some c ∨ c ∈ l := by
  intro l
  induction l with
  | nil => intro acc c h; exact Or.inl h
  | cons dd rest ih =>
    intro acc c h
    rw [List.foldl_cons] at h
    rcases ih (chooseBaseline b pname acc dd) c h with hstep | hmem
    · rcases chooseBaseline_result b pname acc dd with hr | hr
      · exact Or.inl (hr ▸ hstep)
      · right
        rw [hr] at hstep
        exact (Option.some.inj hstep) ▸ List.mem_cons_self dd rest
    · exact Or.inr (List.mem_cons_of_mem dd hmem)

/-- A successful baseline pick is one of the product's eligible points. -/
theorem baselineBest_mem (b : ℚ) (pname : String) (product : ProductRecord)
    (meta : Meta) (d : Option Int) (adv : Bool) (q : Option Int) (c : Cand)
    (h : baselineBest b pname product meta d adv q = some c) :
    c ∈ eligibleCands pname product meta d adv q := by
  rcases foldl_chooseBaseline_mem b pname (eligibleCands pname product meta d adv q)
      none c h with hacc | hmem
  · cases hacc
  · exact hmem

/-- Pointwise-equal step functions fold identically. -/
theorem foldl_congr_fn {α β : Type} (f g : β → α → β) (h : ∀ acc x, f acc x = g acc x) :
    ∀ (l : List α) (init : β), l.foldl f init = l.foldl g init := by
  intro l
  induction l with
  | nil => intro init; rfl
  | cons x rest ih => intro init; rw [List.foldl_cons, List.foldl_cons, h, ih]

/-- For non-Map products the baseline update ignores the budget. -/
theorem chooseBaseline_budget_ne (b1 b2 : ℚ) (pname : String)
    (hp : pname ≠ "Chicago Does Interactive Map") (acc : Option Cand) (dd : Cand) :
    chooseBaseline b1 pname acc dd = chooseBaseline b2 pname acc dd := by
  simp [chooseBaseline, hp]

/-- For non-Map products the baseline pick ignores the budget. -/
theorem baselineBest_budget_ne (b1 b2 : ℚ) (pname : String) (product : ProductRecord)
    (meta : Meta) (d : Option Int) (adv : Bool) (q : Option Int)
    (hp : pname ≠ "Chicago Does Interactive Map") :
    baselineBest b1 pname product meta d adv q
      = baselineBest b2 pname product meta d adv q := by
  rw [baselineBest, baselineBest]
  exact foldl_congr_fn (chooseBaseline b1 pname) (chooseBaseline b2 pname)
    (chooseBaseline_budget_ne b1 b2 pname hp) _ none

/-- The Map baseline update keeps picks within the budget. -/
theorem chooseBaseline_map_bound (b : ℚ) (acc : Option Cand) (dd : Cand)
    (hacc : ∀ bb, acc = some bb → bb.line ≤ b) :
    ∀ bb, chooseBaseline b "Chicago Does Interactive Map" acc dd = some bb →
      bb.line ≤ b := by
  intro bb h
  cases acc with
  | none =>
    by_cases hd : dd.line ≤ b
    · have e : chooseBaseline b "Chicago Does Interactive Map" none dd = some dd := by
        simp [chooseBaseline, hd]
      rw [e] at h
      cases Option.some.inj h
      exact hd
    · have e : chooseBaseline b "Chicago Does Interactive Map" none dd = none := by
        simp [chooseBaseline, hd]
      rw [e] at h
      cases h
  | some b0 =>
    by_cases hd : dd.line ≤ b ∧ b0.line < dd.line
    · have e : chooseBaseline b "Chicago Does Interactive Map" (some b0) dd = some dd := by
        simp [chooseBaseline, hd.1, hd.2]
      rw [e] at h
      cases Option.some.inj h
      exact hd.1
    · have e : chooseBaseline b "Chicago Does Interactive Map" (some b0) dd = some b0 := by
        simp [chooseBaseline, hd]
      rw [e] at h
      cases Option.some.inj h
      exact hacc _ rfl

/-- The Map baseline fold keeps picks within the budget. -/
theorem foldl_chooseBaseline_map_bound (b : ℚ) :
    ∀ (l : List Cand) (acc : Option Cand),
      (∀ bb, acc = some bb → bb.line ≤ b) →
      ∀ c, l.foldl (chooseBaseline b "Chicago Does Interactive Map") acc = some c →
        c.line ≤ b := by
  intro l
  induction l with
  | nil => intro acc hacc c h; exact hacc c h
  | cons dd rest ih =>
    intro acc hacc c h
    rw [List.foldl_cons] at h
    exact ih (chooseBaseline b "Chicago Does Interactive Map" acc dd)
      (chooseBaseline_map_bound b acc dd hacc) c h

/-- The Map baseline pick, when present, fits within the budget. -/
theorem baselineBest_map_bound (b : ℚ) (product : ProductRecord) (meta : Meta)
    (d : Option Int) (adv : Bool) (q : Option Int) (c : Cand)
    (h : baselineBest b "Chicago Does Interactive Map" product meta d adv q = some c) :
    c.line ≤ b :=
  foldl_chooseBaseline_map_bound b (eligibleCands "Chicago Does Interactive Map"
    product meta d adv q) none (by simp) c h

/-- Comparing the Map baseline fold under two budgets `b1 ≤ b2`: the
folds stay equal until the larger budget accepts a tier above `b1`,
after which the larger-budget accumulator stays above `b1`. -/
theorem mapFold_budget_mono (b1 b2 : ℚ) (hb : b1 ≤ b2) :
    ∀ (l : List Cand) (acc1 acc2 : Option Cand),
      (∀ bb, acc1 = some bb → bb.line ≤ b1) →
      (acc1 = acc2 ∨ ∃ c2, acc2 = some c2 ∧ b1 < c2.line) →
      (l.foldl (chooseBaseline b1 "Chicago Does Interactive Map") acc1
          = l.foldl (chooseBaseline b2 "Chicago Does Interactive Map") acc2
        ∨ ∃ c2, l.foldl (chooseBaseline b2 "Chicago Does Interactive Map") acc2
            = some c2 ∧ b1 < c2.line) := by
  intro l
  induction l with
  | nil => intro acc1 acc2 _ hrel; exact hrel
  | cons dd rest ih =>
    intro acc1 acc2 hacc1 hrel
    rw [List.foldl_cons, List.foldl_cons]
    rcases hrel with rfl | ⟨c2, hc2, hc2gt⟩
    · cases acc1 with
      | none =>
        by_cases hd1 : dd.line ≤ b1
        · have e1 : chooseBaseline b1 "Chicago Does Interactive Map" none dd = some dd := by
            simp [chooseBaseline, hd1]
          have e2 : chooseBaseline b2 "Chicago Does Interactive Map" none dd = some dd := by
            simp [chooseBaseline, le_trans hd1 hb]
          rw [e1, e2]
          exact ih (some dd) (some dd) (fun bb hbb => by cases hbb; exact hd1) (Or.inl rfl)
        · have e1 : chooseBaseline b1 "Chicago Does Interactive Map" none dd = none := by
            simp [chooseBaseline, hd1]
          by_cases hd2 : dd.line ≤ b2
          · have e2 : chooseBaseline b2 "Chicago Does Interactive Map" none dd = some dd := by
              simp [chooseBaseline, hd2]
            rw [e1, e2]
            exact ih none (some dd) (by simp) (Or.inr ⟨dd, rfl, lt_of_not_le hd1⟩)
          · have e2 : chooseBaseline b2 "Chicago Does Interactive Map" none dd = none := by
              simp [chooseBaseline, hd2]
            rw [e1, e2]
            exact ih none none (by simp) (Or.inl rfl)
      | some b0 =>
        have hb0 : b0.line ≤ b1 := hacc1 b0 rfl
        by_cases hd1 : dd.line ≤ b1
        · by_cases hlt : b0.line < dd.line
          · have e1 : chooseBaseline b1 "Chicago Does Interactive Map" (some b0) dd
                = some dd := by simp [chooseBaseline, hd1, hlt]
            have e2 : chooseBaseline b2 "Chicago Does Interactive Map" (some b0) dd
                = some dd := by simp [chooseBaseline, le_trans hd1 hb, hlt]
            rw [e1, e2]
            exact ih (some dd) (some dd) (fun bb hbb => by cases hbb; exact hd1) (Or.inl rfl)
          · have e1 : chooseBaseline b1 "Chicago Does Interactive Map" (some b0) dd
                = some b0 := by simp [chooseBaseline, hlt]
            have e2 : chooseBaseline b2 "Chicago Does Interactive Map" (some b0) dd
                = some b0 := by simp [chooseBaseline, hlt]
            rw [e1, e2]
            exact ih (some b0) (some b0) hacc1 (Or.inl rfl)
        · have e1 : chooseBaseline b1 "Chicago Does Interactive Map" (some b0) dd
              = some b0 := by
            simp [chooseBaseline, hd1]
          by_cases hd2 : dd.line ≤ b2
          · have e2 : chooseBaseline b2 "Chicago Does Interactive Map" (some b0) dd
                = some dd := by
              simp [chooseBaseline, hd2, lt_of_le_of_lt hb0 (lt_of_not_le hd1)]
            rw [e1, e2]
            exact ih (some b0) (some dd) hacc1 (Or.inr ⟨dd, rfl, lt_of_not_le hd1⟩)
          · have e2 : chooseBaseline b2 "Chicago Does Interactive Map" (some b0) dd
                = some b0 := by
              simp [chooseBaseline, hd2]
            rw [e1, e2]
            exact ih (some b0) (some b0) hacc1 (Or.inl rfl)
    · subst hc2
      have hstep1bnd := chooseBaseline_map_bound b1 acc1 dd hacc1
      by_cases hd : dd.line ≤ b2 ∧ c2.line < dd.line
      · have e2 : chooseBaseline b2 "Chicago Does Interactive Map" (some c2) dd
            = some dd := by simp [chooseBaseline, hd.1, hd.2]
        rw [e2]
        exact ih (chooseBaseline b1 "Chicago Does Interactive Map" acc1 dd) (some dd)
          hstep1bnd (Or.inr ⟨dd, rfl, lt_trans hc2gt hd.2⟩)
      · have e2 : chooseBaseline b2 "Chicago Does Interactive Map" (some c2) dd
            = some c2 := by simp [chooseBaseline, hd]
        rw [e2]
        exact ih (chooseBaseline b1 "Chicago Does Interactive Map" acc1 dd) (some c2)
          hstep1bnd (Or.inr ⟨c2, rfl, hc2gt⟩)

/-- The Map baseline pick under a larger budget is either unchanged or
a tier whose line price exceeds the smaller budget. -/
theorem baselineBest_map_mono (b1 b2 : ℚ) (hb : b1 ≤ b2) (product : ProductRecord)
    (meta : Meta) (d : Option Int) (adv : Bool) (q : Option Int) :
    baselineBest b1 "Chicago Does Interactive Map" product meta d adv q
      = baselineBest b2 "Chicago Does Interactive Map" product meta d adv q
    ∨ ∃ c2, baselineBest b2 "Chicago Does Interactive Map" product meta d adv q
        = some c2 ∧ b1 < c2.line :=
  mapFold_budget_mono b1 b2 hb
    (eligibleCands "Chicago Does Interactive Map" product meta d adv q) none none
    (by simp) (Or.inl rfl)

/-! ### Budget monotonicity: phase-1 comparison -/

/-- `phase1` on a cons cell whose baseline pick fails. -/
theorem phase1_cons_none (b : ℚ) (meta : Meta) (d : Option Int) (adv : Bool)
    (q : Option Int) (pname : String) (product : ProductRecord) (rest : Products)
    (h : baselineBest b pname product meta d adv q = none) :
    phase1 b meta d adv q ((pname, product) :: rest) = phase1 b meta d adv q rest := by
  rw [phase1, h]

/-- `phase1` on a cons cell whose baseline pick succeeds. -/
theorem phase1_cons_some (b : ℚ) (meta : Meta) (d : Option Int) (adv : Bool)
    (q : Option Int) (pname : String) (product : ProductRecord) (rest : Products)
    (c : Cand) (h : baselineBest b pname product meta d adv q = some c) :
    phase1 b meta d adv q ((pname, product) :: rest)
      = ((pname, (c.opt, c.lbl, c.eff)) :: (phase1 b meta d adv q rest).1,
        lineOf pname product c.lbl c.eff q + (phase1 b meta d adv q rest).2) := by
  rw [phase1, h]

/-- With nonnegative eligible line prices the baseline subtotal is
nonnegative. -/
theorem phase1_nonneg (b : ℚ) (meta : Meta) (d : Option Int) (adv : Bool)
    (q : Option Int) :
    ∀ P : Products,
      (∀ pr ∈ P, ∀ c ∈ eligibleCands pr.1 pr.2 meta d adv q, 0 ≤ c.line) →
      0 ≤ (phase1 b meta d adv q P).2 := by
  intro P
  induction P with
  | nil => intro _; rw [phase1]
  | cons e rest ih =>
    obtain ⟨pname, product⟩ := e
    intro hpos
    have htail := ih (fun pr hpr => hpos pr (List.mem_cons_of_mem _ hpr))
    cases hbb : baselineBest b pname product meta d adv q with
    | none => rw [phase1_cons_none b meta d adv q pname product rest hbb]; exact htail
    | some c =>
      rw [phase1_cons_some b meta d adv q pname product rest c hbb]
      have hcm := baselineBest_mem b pname product meta d adv q c hbb
      have hc0 : 0 ≤ c.line := hpos (pname, product) (List.mem_cons_self _ _) c hcm
      have hline := eligibleCands_line pname product meta d adv q c hcm
      dsimp only
      rw [← hline]
      linarith

/-- With no Interactive-Map product the phase-1 result ignores the
budget. -/
theorem phase1_budget_ne (b1 b2 : ℚ) (meta : Meta) (d : Option Int) (adv : Bool)
    (q : Option Int) :
    ∀ P : Products, (∀ pr ∈ P, pr.1 ≠ "Chicago Does Interactive Map") →
      phase1 b1 meta d adv q P = phase1 b2 meta d adv q P := by
  intro P
  induction P with
  | nil => intro _; rfl
  | cons e rest ih =>
    obtain ⟨pname, product⟩ := e
    intro hno
    have hp : pname ≠ "Chicago Does Interactive Map" :=
      hno (pname, product) (List.mem_cons_self _ _)
    have htail := ih (fun pr hpr => hno pr (List.mem_cons_of_mem _ hpr))
    rw [phase1, phase1, baselineBest_budget_ne b1 b2 pname product meta d adv q hp, htail]

/-- Comparing phase 1 under budgets `b1 ≤ b2` with nonnegative line
prices: either the baselines agree, or the `b2` baseline subtotal
already exceeds `b1`; and the baseline subtotal is monotone. -/
theorem phase1_budget_mono (b1 b2 : ℚ) (hb : b1 ≤ b2) (meta : Meta) (d : Option Int)
    (adv : Bool) (q : Option Int) :
    ∀ P : Products,
      (∀ pr ∈ P, ∀ c ∈ eligibleCands pr.1 pr.2 meta d adv q, 0 ≤ c.line) →
      ((phase1 b1 meta d adv q P = phase1 b2 meta d adv q P
          ∨ b1 < (phase1 b2 meta d adv q P).2)
        ∧ (phase1 b1 meta d adv q P).2 ≤ (phase1 b2 meta d adv q P).2) := by
  intro P
  induction P with
  | nil => intro _; exact ⟨Or.inl rfl, le_refl _⟩
  | cons e rest ih =>
    obtain ⟨pname, product⟩ := e
    intro hpos
    have hpos' := fun pr hpr => hpos pr (List.mem_cons_of_mem _ hpr)
    obtain ⟨ihd, ihm⟩ := ih hpos'
    have htail2 := phase1_nonneg b2 meta d adv q rest hpos'
    have hheadpos : ∀ c ∈ eligibleCands pname product meta d adv q, 0 ≤ c.line :=
      hpos (pname, product) (List.mem_cons_self _ _)
    have hsame : baselineBest b1 pname product meta d adv q
          = baselineBest b2 pname product meta d adv q →
        ((phase1 b1 meta d adv q ((pname, product) :: rest)
            = phase1 b2 meta d adv q ((pname, product) :: rest)
          ∨ b1 < (phase1 b2 meta d adv q ((pname, product) :: rest)).2)
        ∧ (phase1 b1 meta d adv q ((pname, product) :: rest)).2
            ≤ (phase1 b2 meta d adv q ((pname, product) :: rest)).2) := by
      intro hbeq
      cases hbb : baselineBest b2 pname product meta d adv q with
      | none =>
        rw [phase1_cons_none b1 meta d adv q pname product rest (hbeq.trans hbb),
          phase1_cons_none b2 meta d adv q pname product rest hbb]
        exact ⟨ihd, ihm⟩
      | some c =>
        rw [phase1_cons_some b1 meta d adv q pname product rest c (hbeq.trans hbb),
          phase1_cons_some b2 meta d adv q pname product rest c hbb]
        have hcm := baselineBest_mem b2 pname product meta d adv q c hbb
        have hc0 : 0 ≤ c.line := hheadpos c hcm
        have hline := eligibleCands_line pname product meta d adv q c hcm
        constructor
        · rcases ihd with htl | hlt2
          · left
            rw [htl]
          · right
            dsimp only
            rw [← hline]
            linarith
        · dsimp only
          linarith
    by_cases hp : pname = "Chicago Does Interactive Map"
    · subst hp
      rcases baselineBest_map_mono b1 b2 hb product meta d adv q with hbeq | ⟨c2, hc2, hc2gt⟩
      · exact hsame hbeq
      · have hcm := baselineBest_mem b2 _ product meta d adv q c2 hc2
        have hc20 : 0 ≤ c2.line := hheadpos c2 hcm
        have hline2 := eligibleCands_line _ product meta d adv q c2 hcm
        rw [phase1_cons_some b2 meta d adv q _ product rest c2 hc2]
        cases hbb1 : baselineBest b1 "Chicago Does Interactive Map" product meta d adv q with
        | none =>
          rw [phase1_cons_none b1 meta d adv q _ product rest hbb1]
          constructor
          · right
            dsimp only
            rw [← hline2]
            linarith
          · dsimp only
            linarith
        | some c1 =>
          have hc1b := baselineBest_map_bound b1 product meta d adv q c1 hbb1
          have hcm1 := baselineBest_mem b1 _ product meta d adv q c1 hbb1
          have hline1 := eligibleCands_line _ product meta d adv q c1 hcm1
          rw [phase1_cons_some b1 meta d adv q _ product rest c1 hbb1]
          constructor
          · right
            dsimp only
            rw [← hline2]
            linarith
          · dsimp only
            rw [← hline1, ← hline2]
            linarith
    · exact hsame (baselineBest_budget_ne b1 b2 pname product meta d adv q hp)

/-! ### Budget monotonicity: upgrade-loop comparison -/

/-- `find?` with a weaker predicate either agrees with the stronger one
or returns a hit the stronger predicate rejects. -/
theorem find?_imp_dichotomy {α : Type} (p1 p2 : α → Bool)
    (himp : ∀ x, p1 x = true → p2 x = true) :
    ∀ l : List α, l.find? p1 = l.find? p2
      ∨ ∃ c, l.find? p2 = some c ∧ p1 c = false := by
  intro l
  induction l with
  | nil => left; rfl
  | cons x rest ih =>
    by_cases hp1 : p1 x = true
    · left
      rw [List.find?_cons_of_pos rest hp1, List.find?_cons_of_pos rest (himp x hp1)]
    · have hp1' : p1 x = false := by
        cases hx : p1 x
        · rfl
        · exact absurd hx hp1
      by_cases hp2 : p2 x = true
      · exact Or.inr ⟨x, List.find?_cons_of_pos rest hp2, hp1'⟩
      · rw [List.find?_cons_of_neg rest hp1, List.find?_cons_of_neg rest hp2]
        exact ih

/-- An upgrade step under budgets `b1 ≤ b2` from the same state either
acts identically or leaves the larger-budget subtotal above `b1`. -/
theorem stepProduct_budget_mono (b1 b2 : ℚ) (hb : b1 ≤ b2) (products : Products)
    (meta : Meta) (d : Option Int) (adv : Bool) (q : Option Int)
    (st : Picks × ℚ × Bool) (e : String × PickT) :
    stepProduct b1 products meta d adv q st e = stepProduct b2 products meta d adv q st e
    ∨ b1 < (stepProduct b2 products meta d adv q st e).2.1 := by
  cases hp : lookupA products e.1 with
  | none => left; simp [stepProduct, hp]
  | some product =>
    have himp : ∀ x : Cand,
        decide (st.2.1 - lineOf e.1 product e.2.2.1 e.2.2.2 q + x.line ≤ b1) = true →
        decide (st.2.1 - lineOf e.1 product e.2.2.1 e.2.2.2 q + x.line ≤ b2) = true :=
      fun x hx => decide_eq_true (le_trans (of_decide_eq_true hx) hb)
    rcases find?_imp_dichotomy _ _ himp
        (((eligibleCands e.1 product meta d adv q).filter
          (fun c => decide (lineOf e.1 product e.2.2.1 e.2.2.2 q < c.line))).mergeSort
            (fun a b => decide (a.line ≤ b.line))) with heq | ⟨c, hfind, hfalse⟩
    · left
      simp only [stepProduct, hp]
      rw [heq]
    · right
      simp only [stepProduct, hp]
      rw [hfind]
      dsimp only
      exact lt_of_not_le (of_decide_eq_false hfalse)

/-- Folding upgrade steps under budgets `b1 ≤ b2` from related states
keeps the states equal or the larger-budget subtotal above `b1`. -/
theorem foldl_step_budget_mono (b1 b2 : ℚ) (hb : b1 ≤ b2) (products : Products)
    (meta : Meta) (d : Option Int) (adv : Bool) (q : Option Int)
    (l : List (String × PickT)) :
    ∀ st1 st2 : Picks × ℚ × Bool,
      (st1 = st2 ∨ b1 < st2.2.1) →
      (l.foldl (stepProduct b1 products meta d adv q) st1
          = l.foldl (stepProduct b2 products meta d adv q) st2
        ∨ b1 < (l.foldl (stepProduct b2 products meta d adv q) st2).2.1) := by
  induction l with
  | nil => intro st1 st2 hrel; exact hrel
  | cons e rest ih =>
    intro st1 st2 hrel
    rw [List.foldl_cons, List.foldl_cons]
    rcases hrel with rfl | hgt
    · rcases stepProduct_budget_mono b1 b2 hb products meta d adv q st1 e with heq | hgt2
      · rw [heq]
        exact ih _ _ (Or.inl rfl)
      · exact ih _ _ (Or.inr hgt2)
    · exact ih _ _ (Or.inr (lt_of_lt_of_le hgt
        (stepProduct_sub_mono b2 products meta d adv q st2 e)))

/-- One upgrade pass under budgets `b1 ≤ b2` from the same state either
acts identically or leaves the larger-budget subtotal above `b1`. -/
theorem onePass_budget_mono (b1 b2 : ℚ) (hb : b1 ≤ b2) (products : Products)
    (meta : Meta) (d : Option Int) (adv : Bool) (q : Option Int) (picks : Picks)
    (sub : ℚ) :
    onePass b1 products meta d adv q picks sub = onePass b2 products meta d adv q picks sub
    ∨ b1 < (onePass b2 products meta d adv q picks sub).2.1 :=
  foldl_step_budget_mono b1 b2 hb products meta d adv q picks
    (picks, sub, false) (picks, sub, false) (Or.inl rfl)

/-- The upgrade loop under budgets `b1 ≤ b2` from the same state either
acts identically or ends with the larger-budget subtotal above `b1`. -/
theorem upgradeLoop_budget_mono (b1 b2 : ℚ) (hb : b1 ≤ b2) (products : Products)
    (meta : Meta) (d : Option Int) (adv : Bool) (q : Option Int) :
    ∀ (fuel : Nat) (picks : Picks) (sub : ℚ),
      upgradeLoop b1 products meta d adv q fuel picks sub
          = upgradeLoop b2 products meta d adv q fuel picks sub
        ∨ b1 < (upgradeLoop b2 products meta d adv q fuel picks sub).2 := by
  intro fuel
  induction fuel with
  | zero => intro picks sub; left; rfl
  | succ n ih =>
    intro picks sub
    rw [upgradeLoop, upgradeLoop]
    rcases onePass_budget_mono b1 b2 hb products meta d adv q picks sub with heq | hgt
    · rw [heq]
      by_cases himp : (onePass b2 products meta d adv q picks sub).2.2
      · simp only [himp, if_true]
        exact ih _ _
      · simp only [himp, if_false]
        left
        rfl
    · right
      by_cases himp : (onePass b2 products meta d adv q picks sub).2.2
      · simp only [himp, if_true]
        exact lt_of_lt_of_le hgt (upgradeLoop_sub_mono b2 products meta d adv q n _ _)
      · simp only [himp, if_false]
        exact hgt

/-- The pre-rounding subtotal of `greedy_core` is monotone in the
budget when all eligible line prices are nonnegative. -/
theorem greedy_core_budget_mono (b1 b2 : ℚ) (hb : b1 ≤ b2) (P : Products)
    (meta : Meta) (d : Option Int) (adv : Bool) (q : Option Int)
    (hpos : ∀ pr ∈ P, ∀ c ∈ eligibleCands pr.1 pr.2 meta d adv q, 0 ≤ c.line) :
    (greedy_core b1 P meta d adv q).2.1 ≤ (greedy_core b2 P meta d adv q).2.1 := by
  obtain ⟨hd, hm⟩ := phase1_budget_mono b1 b2 hb meta d adv q P hpos
  have h2ge : (phase1 b2 meta d adv q P).2 ≤ (greedy_core b2 P meta d adv q).2.1 := by
    rw [greedy_core]
    by_cases hf2 : b2 < (phase1 b2 meta d adv q P).2
    · rw [if_pos hf2]
    · rw [if_neg hf2]
      dsimp only
      exact upgradeLoop_sub_mono b2 P meta d adv q _ _ _
  rcases hd with heq | hgt
  · rw [greedy_core, greedy_core, heq]
    by_cases hf1 : b1 < (phase1 b2 meta d adv q P).2
    · rw [if_pos hf1]
      by_cases hf2 : b2 < (phase1 b2 meta d adv q P).2
      · rw [if_pos hf2]
      · rw [if_neg hf2]
        dsimp only
        exact upgradeLoop_sub_mono b2 P meta d adv q _ _ _
    · rw [if_neg hf1]
      have hf2 : ¬ b2 < (phase1 b2 meta d adv q P).2 :=
        fun h => hf1 (lt_of_le_of_lt hb h)
      rw [if_neg hf2]
      dsimp only
      rcases upgradeLoop_budget_mono b1 b2 hb P meta d adv q
          (picksMeasure P meta d adv q (phase1 b2 meta d adv q P).1 + 1)
          (phase1 b2 meta d adv q P).1 (phase1 b2 meta d adv q P).2 with heq2 | hgt2
      · rw [heq2]
      · have hle1 := upgradeLoop_sub_le b1 P meta d adv q
          (picksMeasure P meta d adv q (phase1 b2 meta d adv q P).1 + 1)
          (phase1 b2 meta d adv q P).1 (phase1 b2 meta d adv q P).2 (le_of_not_lt hf1)
        linarith
  · by_cases hf1 : b1 < (phase1 b1 meta d adv q P).2
    · rw [greedy_core, if_pos hf1]
      dsimp only
      linarith
    · rw [greedy_core, if_neg hf1]
      dsimp only
      have hle1 := upgradeLoop_sub_le b1 P meta d adv q
        (picksMeasure P meta d adv q (phase1 b1 meta d adv q P).1 + 1)
        (phase1 b1 meta d adv q P).1 (phase1 b1 meta d adv q P).2 (le_of_not_lt hf1)
      linarith

/-! ### Rounding is monotone -/

/-- Unfolded form of `roundHalfEven`. -/
theorem roundHalfEven_eq (x : ℚ) :
    roundHalfEven x = if x - ⌊x⌋ < 1 / 2 then ⌊x⌋
      else if 1 / 2 < x - ⌊x⌋ then ⌊x⌋ + 1
      else if Even ⌊x⌋ then ⌊x⌋ else ⌊x⌋ + 1 := rfl

/-- `roundHalfEven` never rounds below the floor. -/
theorem roundHalfEven_ge_floor (x : ℚ) : ⌊x⌋ ≤ roundHalfEven x := by
  rw [roundHalfEven_eq]
  by_cases h1 : x - ⌊x⌋ < 1 / 2
  · rw [if_pos h1]
  · rw [if_neg h1]
    by_cases h2 : 1 / 2 < x - ⌊x⌋
    · rw [if_pos h2]
      omega
    · rw [if_neg h2]
      by_cases h3 : Even ⌊x⌋
      · rw [if_pos h3]
      · rw [if_neg h3]
        omega

/-- `roundHalfEven` never rounds above the floor plus one. -/
theorem roundHalfEven_le_floor_add_one (x : ℚ) : roundHalfEven x ≤ ⌊x⌋ + 1 := by
  rw [roundHalfEven_eq]
  by_cases h1 : x - ⌊x⌋ < 1 / 2
  · rw [if_pos h1]
    omega
  · rw [if_neg h1]
    by_cases h2 : 1 / 2 < x - ⌊x⌋
    · rw [if_pos h2]
    · rw [if_neg h2]
      by_cases h3 : Even ⌊x⌋
      · rw [if_pos h3]
        omega
      · rw [if_neg h3]

/-- `roundHalfEven` is monotone. -/
theorem roundHalfEven_mono (x y : ℚ) (h : x ≤ y) : roundHalfEven x ≤ roundHalfEven y := by
  have hf : ⌊x⌋ ≤ ⌊y⌋ := Int.floor_mono h
  by_cases hfx : ⌊x⌋ < ⌊y⌋
  · have h1 := roundHalfEven_le_floor_add_one x
    have h2 := roundHalfEven_ge_floor y
    omega
  · have hfeq : ⌊x⌋ = ⌊y⌋ := le_antisymm hf (le_of_not_lt hfx)
    have hr : x - ⌊x⌋ ≤ y - (⌊y⌋ : ℚ) := by
      rw [← hfeq]
      linarith
    rw [roundHalfEven_eq, roundHalfEven_eq]
    by_cases hx1 : x - ⌊x⌋ < 1 / 2
    · rw [if_pos hx1]
      have := roundHalfEven_ge_floor y
      rw [roundHalfEven_eq] at this
      omega
    · rw [if_neg hx1]
      have hy1 : ¬ y - (⌊y⌋ : ℚ) < 1 / 2 := by
        intro hy
        exact hx1 (lt_of_le_of_lt hr hy)
      rw [if_neg hy1]
      by_cases hx2 : 1 / 2 < x - ⌊x⌋
      · rw [if_pos hx2]
        have hy2 : 1 / 2 < y - (⌊y⌋ : ℚ) := lt_of_lt_of_le hx2 hr
        rw [if_pos hy2, hfeq]
      · rw [if_neg hx2]
        by_cases hy2 : 1 / 2 < y - (⌊y⌋ : ℚ)
        · rw [if_pos hy2]
          by_cases hx3 : Even ⌊x⌋
          · rw [if_pos hx3]
            omega
          · rw [if_neg hx3]
            omega
        · rw [if_neg hy2]
          rw [hfeq]

/-- `round2` is monotone. -/
theorem round2_mono (x y : ℚ) (h : x ≤ y) : round2 x ≤ round2 y := by
  rw [round2, round2]
  have h100 : x * 100 ≤ y * 100 := by linarith
  have := roundHalfEven_mono (x * 100) (y * 100) h100
  have hcast : ((roundHalfEven (x * 100) : ℤ) : ℚ) ≤ ((roundHalfEven (y * 100) : ℤ) : ℚ) :=
    Int.cast_le.mpr this
  linarith

/-! ### C5: the amended budget-monotonicity statement -/

/-- C5 (amended): for budgets `b1 ≤ b2` with all inputs fixed, (i) when
every eligible line price is nonnegative the returned subtotal is
monotone in the budget, and (ii) when the pool contains no product
named "Chicago Does Interactive Map" (so the baseline ignores the
budget) a non-overage result never flips into overage.  With the
Interactive-Map product present, part (ii) fails as witnessed by the
counterexample theorem. -/
theorem budget_monotonicity_amended (b1 b2 : ℚ) (P : Products) (meta : Meta)
    (d : Option Int) (adv : Bool) (q : Option Int) (hb : b1 ≤ b2) :
    ((∀ pr ∈ P, ∀ c ∈ eligibleCands pr.1 pr.2 meta d adv q, 0 ≤ c.line) →
      (greedy_fill_to_cap b1 P meta d adv q).1.subtotal
        ≤ (greedy_fill_to_cap b2 P meta d adv q).1.subtotal)
    ∧ ((∀ pr ∈ P, pr.1 ≠ "Chicago Does Interactive Map") →
      (greedy_fill_to_cap b1 P meta d adv q).2 = false →
      (greedy_fill_to_cap b2 P meta d adv q).2 = false) := by
  constructor
  · intro hpos
    have hmono := greedy_core_budget_mono b1 b2 hb P meta d adv q hpos
    show round2 (greedy_core b1 P meta d adv q).2.1
      ≤ round2 (greedy_core b2 P meta d adv q).2.1
    exact round2_mono _ _ hmono
  · intro hno hf1
    have hph := phase1_budget_ne b1 b2 meta d adv q P hno
    by_cases hb1 : b1 < (phase1 b1 meta d adv q P).2
    · exfalso
      rw [greedy_fill_to_cap] at hf1
      rw [greedy_core] at hf1
      simp [hb1] at hf1
    · have hb2 : ¬ b2 < (phase1 b2 meta d adv q P).2 := by
        rw [← hph]
        intro hc
        exact hb1 (lt_of_le_of_lt hb hc)
      rw [greedy_fill_to_cap, greedy_core]
      simp [hb2]

/-- Witness for C5 (amended): subtotal monotonicity on the Map pool at
budgets 150 and 1000, and overage monotonicity on the Map-free
Banner-Ad pool at budgets 300 and 400. -/
theorem budget_monotonicity_amended_witness :
    ((greedy_fill_to_cap 150 mapPoolProducts [] none true none).1.subtotal
        ≤ (greedy_fill_to_cap 1000 mapPoolProducts [] none true none).1.subtotal)
    ∧ ((greedy_fill_to_cap 400 bannerProducts [] none true none).2 = false) :=
  ⟨(budget_monotonicity_amended 150 1000 mapPoolProducts [] none true none
      (by norm_num)).1 (by with_unfolding_all decide),
   (budget_monotonicity_amended 300 400 bannerProducts [] none true none
      (by norm_num)).2 (by decide) (by with_unfolding_all decide)⟩

end Ateema
